import Mathlib

/-!
Verification of the optimizing stack-machine backend (Yul → EVM prototype):
shallow embedding of the stack-slot algebra (libyul/DataFlowGraph.h), the
stack shuffler `createStackLayout` (libyul/backends/evm/StackHelpers.h), the
stack layout generator (libyul/backends/evm/StackLayoutGenerator.cpp) and the
data-flow-graph builder (libyul/DataFlowGraph.cpp), together with theorems
about the properties the specification claims for them.
-/

namespace SolYul

/-- Stack slots, mirroring the `StackSlot` variant of DataFlowGraph.h.
Call sites and variables are identities; we represent them by numeric ids.
`LiteralSlot` compares by value, `VariableSlot` by variable identity,
`TemporarySlot` by (call, index), `FunctionCallReturnLabelSlot` by call
identity, and `FunctionReturnLabelSlot`/`JunkSlot` are always equal. -/
inductive StackSlot where
  | retLabel (callId : Nat)        -- FunctionCallReturnLabelSlot
  | funRetLabel                    -- FunctionReturnLabelSlot
  | varSlot (varId : Nat)          -- VariableSlot
  | litSlot (value : Nat)          -- LiteralSlot
  | tempSlot (callId : Nat) (idx : Nat)  -- TemporarySlot
  | junk                           -- JunkSlot
  deriving DecidableEq, Repr

/-- A stack is a sequence of slots, bottom first (`back` of the C++ vector is
the top of the stack). -/
abbrev Stack := List StackSlot

/-- util::findOffset — the first index of `x` in `l`, if any. -/
def findOffset (l : Stack) (x : StackSlot) : Option Nat :=
  l.findIdx? (fun s => s = x)

/-- findAllOffsets (StackHelpers.h) — the ascending list of all indices of
`x` in `l` (the C++ returns them as a `std::set<unsigned>`). -/
def findAllOffsets (l : Stack) (x : StackSlot) : List Nat :=
  (List.range l.length).filter (fun i => l[i]? = some x)

/-- The four callbacks of `createStackLayout`, recorded as abstract stack
operations. Depths are 1-based as in EVM SWAPn/DUPn. -/
inductive ShuffleOp where
  | swapOp (depth : Nat)
  | dupOp (depth : Nat)
  | pushOp (slot : StackSlot)
  | popOp
  deriving DecidableEq, Repr

/-- Exchange the top of the stack with the element `depth` positions below it
(SWAPn semantics: depth 1 exchanges the two topmost slots). -/
def swapTop (s : Stack) (depth : Nat) : Stack :=
  match s.getLast?, s[s.length - 1 - depth]? with
  | some tp, some y => (s.set (s.length - 1 - depth) tp).set (s.length - 1) y
  | _, _ => s

/-- Interpretation of one shuffle callback as a stack operation. -/
def applyShuffleOp (s : Stack) : ShuffleOp → Stack
  | .swapOp d => swapTop s d
  | .dupOp d =>
    match s[s.length - d]? with
    | some x => s ++ [x]
    | none => s
  | .pushOp x => s ++ [x]
  | .popOp => s.dropLast

/-- Interpretation of a callback sequence, first callback first. -/
def applyShuffleOps (s : Stack) : List ShuffleOp → Stack
  | [] => s
  | op :: ops => applyShuffleOps (applyShuffleOp s op) ops

/-- Shallow embedding of `createStackLayout` (StackHelpers.h, lines 70-215).
Fuel-based: each recursive call of the C++ template consumes one unit of
fuel; `none` means the fuel ran out or a `yulAssert` failed.  The result is
the emitted callback sequence, the final (mutated) current stack, and the
diagnostic lines that would have been printed when not silent.  The branches
mirror the source: return on equality; push everything on an empty current
stack; pop an over-represented top; in the "top is in place" branch try dup,
then push, then swap the deepest out-of-place slot up; otherwise swap the
top into a wrong target position, else dup, else push, else fail
(`yulAssert(false)`). -/
def createStackLayoutAux : Nat → Bool → Stack → Stack → Option (List ShuffleOp × Stack × List String)
  | 0, _, _, _ => none
  | fuel + 1, silent, cur, tgt =>
    if cur = tgt then some ([], cur, [])
    else
      let header : List String := if silent then [] else ["CREATE STACK LAYOUT"]
      if cur = [] then
        some (tgt.map ShuffleOp.pushOp, tgt, header)
      else
        match cur.getLast? with
        | none => none
        | some top =>
          let n := cur.length
          let topTargets := findAllOffsets tgt top
          if topTargets.length < (findAllOffsets cur top).length then
            match createStackLayoutAux fuel silent cur.dropLast tgt with
            | none => none
            | some (ops, fin, logs) =>
              some (.popOp :: ops, fin, header ++ (if silent then [] else ["POP TOP"]) ++ logs)
          else if n ≤ tgt.length ∧ tgt[n - 1]? = some top then
            -- current top is in place
            match cur.enum.find? (fun p =>
                decide ((findAllOffsets cur p.2).length < (findAllOffsets tgt p.2).length)) with
            | some (_, slot) =>
              match findOffset cur.reverse slot with
              | none => none
              | some k =>
                match createStackLayoutAux fuel silent (cur ++ [slot]) tgt with
                | none => none
                | some (ops, fin, logs) =>
                  some (.dupOp (k + 1) :: ops, fin,
                    header ++ (if silent then [] else ["DUP"]) ++ logs)
            | none =>
              match tgt.find? (fun slot => findOffset cur slot = none) with
              | some slot =>
                match createStackLayoutAux fuel silent (cur ++ [slot]) tgt with
                | none => none
                | some (ops, fin, logs) =>
                  some (.pushOp slot :: ops, fin,
                    header ++ (if silent then [] else ["PUSH"]) ++ logs)
              | none =>
                match cur.enum.find? (fun p =>
                    decide (¬ tgt[p.1]? = some p.2 ∧ ¬ p.2 = top)) with
                | some (o, slot) =>
                  match createStackLayoutAux fuel silent ((cur.set o top).set (n - 1) slot) tgt with
                  | none => none
                  | some (ops, fin, logs) =>
                    some (.swapOp (n - o - 1) :: ops, fin,
                      header ++ (if silent then [] else ["SWAP"]) ++ logs)
                | none =>
                  -- C++: yulAssert(_currentStack == _targetStack) and return;
                  -- unreachable here since cur ≠ tgt was established above.
                  none
          else
            -- current top is not in place
            let fallthru : Option (List ShuffleOp × Stack × List String) :=
              match cur.enum.find? (fun p =>
                  decide ((findAllOffsets cur p.2).length < (findAllOffsets tgt p.2).length)) with
              | some (_, slot) =>
                match findOffset cur.reverse slot with
                | none => none
                | some k =>
                  match createStackLayoutAux fuel silent (cur ++ [slot]) tgt with
                  | none => none
                  | some (ops, fin, logs) =>
                    some (.dupOp (k + 1) :: ops, fin,
                      header ++ (if silent then [] else ["DUP"]) ++ logs)
              | none =>
                match tgt.find? (fun slot => findOffset cur slot = none) with
                | some slot =>
                  match createStackLayoutAux fuel silent (cur ++ [slot]) tgt with
                  | none => none
                  | some (ops, fin, logs) =>
                    some (.pushOp slot :: ops, fin,
                      header ++ (if silent then [] else ["PUSH"]) ++ logs)
                | none =>
                  -- C++: yulAssert(false, "")
                  none
            match topTargets.find? (fun p => decide (n ≤ p) || decide (¬ cur[p]? = tgt[p]?)) with
            | some p =>
              if p < n then
                match cur[p]? with
                | none => none
                | some y =>
                  match createStackLayoutAux fuel silent ((cur.set p top).set (n - 1) y) tgt with
                  | none => none
                  | some (ops, fin, logs) =>
                    some (.swapOp (n - p - 1) :: ops, fin,
                      header ++ (if silent then [] else ["Move into place"]) ++ logs)
              else fallthru
            | none => fallthru

/-- Shallow embedding of the exported `createStackLayout`: the C++ function
takes a `_silent` parameter but unconditionally overwrites it with `true` on
entry (StackHelpers.h line 72), so the recursion always runs silently. -/
def createStackLayout (fuel : Nat) (cur tgt : Stack) (silent : Bool) :
    Option (List ShuffleOp × Stack × List String) :=
  have _ := silent
  createStackLayoutAux fuel true cur tgt


/-! ### Basic facts about the helpers -/

theorem findAllOffsets_length (l : Stack) (x : StackSlot) :
    (findAllOffsets l x).length = l.count x := by
  induction l using List.reverseRecOn with
  | nil => simp [findAllOffsets]
  | append_singleton l a ih =>
    unfold findAllOffsets
    rw [List.length_append, List.length_singleton, List.range_succ, List.filter_append,
      List.length_append, List.count_append]
    have h1 : List.filter (fun i => decide ((l ++ [a])[i]? = some x)) (List.range l.length) =
        List.filter (fun i => decide (l[i]? = some x)) (List.range l.length) := by
      apply List.filter_congr
      intro i hi
      rw [List.mem_range] at hi
      rw [List.getElem?_append]
      simp [hi]
    rw [h1]
    unfold findAllOffsets at ih
    rw [ih]
    have h2 : (l ++ [a])[l.length]? = some a := by
      rw [List.getElem?_append]
      simp
    by_cases hax : a = x
    · subst hax
      simp [h2, List.count_singleton']
    · simp [h2, hax, List.count_singleton']

theorem findOffset_eq_none_iff (l : Stack) (x : StackSlot) :
    findOffset l x = none ↔ x ∉ l := by
  unfold findOffset
  rw [List.findIdx?_eq_none_iff]
  constructor
  · intro h hx
    have := h x hx
    simp at this
  · intro h y hy
    simp only [decide_eq_false_iff_not]
    intro hxy
    exact h (hxy ▸ hy)

theorem findOffset_spec (l : Stack) (x : StackSlot) (k : Nat)
    (h : findOffset l x = some k) : l[k]? = some x := by
  unfold findOffset at h
  rw [List.findIdx?_eq_some_iff_getElem] at h
  obtain ⟨hk, hpk, -⟩ := h
  simp only [decide_eq_true_eq] at hpk
  rw [List.getElem?_eq_getElem hk, hpk]

theorem applyShuffleOps_append (s : Stack) (o1 o2 : List ShuffleOp) :
    applyShuffleOps s (o1 ++ o2) = applyShuffleOps (applyShuffleOps s o1) o2 := by
  induction o1 generalizing s with
  | nil => rfl
  | cons op ops ih => simp [applyShuffleOps, ih]

theorem applyShuffleOps_pushAll (s : Stack) (l : Stack) :
    applyShuffleOps s (l.map ShuffleOp.pushOp) = s ++ l := by
  induction l generalizing s with
  | nil => simp [applyShuffleOps]
  | cons a l ih => simp [applyShuffleOps, applyShuffleOp, ih]

/-! ### The measure for `createStackLayout` -/

/-- Total number of slots by which the current stack's multiset of slots
exceeds the target's. -/
def slotSurplus (cur tgt : Stack) : Nat :=
  Multiset.card ((cur : Multiset StackSlot) - (tgt : Multiset StackSlot))

/-- Total number of slots by which the current stack's multiset of slots
falls short of the target's. -/
def slotShortfall (cur tgt : Stack) : Nat :=
  Multiset.card ((tgt : Multiset StackSlot) - (cur : Multiset StackSlot))

/-- Number of positions strictly below the current top (and within the
target) whose slots disagree between current and target. -/
def mismatchBelowTop (cur tgt : Stack) : Nat :=
  ((Finset.range (min (cur.length - 1) tgt.length)).filter
    (fun p => ¬ cur[p]? = tgt[p]?)).card

/-- One when the current top coincides with the target slot at its position
(the "top is in place" test of the shuffler), zero otherwise. -/
def topInPlaceBit (cur tgt : Stack) : Nat :=
  if cur ≠ [] ∧ cur.length ≤ tgt.length ∧ tgt[cur.length - 1]? = cur.getLast? then 1 else 0

/-- Termination measure for the shuffler: every recursive call of
`createStackLayoutAux` strictly decreases it. -/
def shuffleMeasure (cur tgt : Stack) : Nat :=
  4 * (slotSurplus cur tgt + slotShortfall cur tgt) + 2 * mismatchBelowTop cur tgt
    + topInPlaceBit cur tgt

/-! ### Multiset bookkeeping for the measure -/

theorem ms_addx_sub_of_le (A B : Multiset StackSlot) (x : StackSlot)
    (h : B.count x ≤ A.count x) : (A + {x}) - B = (A - B) + {x} := by
  rw [Multiset.ext]
  intro a
  by_cases hax : a = x
  · subst hax
    simp [Multiset.count_sub, Multiset.count_add, Multiset.count_singleton]
    omega
  · simp [Multiset.count_sub, Multiset.count_add, Multiset.count_singleton, hax]

theorem ms_sub_addx_of_le (A B : Multiset StackSlot) (x : StackSlot)
    (h : B.count x ≤ A.count x) : B - (A + {x}) = B - A := by
  rw [Multiset.ext]
  intro a
  by_cases hax : a = x
  · subst hax
    simp [Multiset.count_sub, Multiset.count_add, Multiset.count_singleton]
    omega
  · simp [Multiset.count_sub, Multiset.count_add, Multiset.count_singleton, hax]

theorem ms_addx_sub_of_lt (A B : Multiset StackSlot) (x : StackSlot)
    (h : A.count x < B.count x) : (A + {x}) - B = A - B := by
  rw [Multiset.ext]
  intro a
  by_cases hax : a = x
  · subst hax
    simp [Multiset.count_sub, Multiset.count_add, Multiset.count_singleton]
    omega
  · simp [Multiset.count_sub, Multiset.count_add, Multiset.count_singleton, hax]

theorem ms_sub_addx_of_lt (A B : Multiset StackSlot) (x : StackSlot)
    (h : A.count x < B.count x) : B - (A + {x}) = (B - A).erase x := by
  rw [Multiset.ext]
  intro a
  by_cases hax : a = x
  · subst hax
    rw [Multiset.count_erase_self]
    simp [Multiset.count_sub, Multiset.count_add, Multiset.count_singleton]
    omega
  · rw [Multiset.count_erase_of_ne hax]
    simp [Multiset.count_sub, Multiset.count_add, Multiset.count_singleton, hax]

theorem coe_append_singleton (d : Stack) (x : StackSlot) :
    ((d ++ [x] : Stack) : Multiset StackSlot) = (d : Multiset StackSlot) + {x} := by
  rw [← Multiset.coe_add, Multiset.coe_singleton]

/-- Popping an over-represented top slot lowers the surplus by one and leaves
the shortfall unchanged. -/
theorem surplus_shortfall_pop (d tgt : Stack) (x : StackSlot)
    (h : tgt.count x ≤ d.count x) :
    slotSurplus (d ++ [x]) tgt = slotSurplus d tgt + 1 ∧
      slotShortfall (d ++ [x]) tgt = slotShortfall d tgt := by
  have hc : Multiset.count x (tgt : Multiset StackSlot) ≤ Multiset.count x (d : Multiset StackSlot) := by
    rw [Multiset.coe_count, Multiset.coe_count]; exact h
  constructor
  · unfold slotSurplus
    rw [coe_append_singleton, ms_addx_sub_of_le _ _ _ hc, Multiset.card_add]
    simp
  · unfold slotShortfall
    rw [coe_append_singleton, ms_sub_addx_of_le _ _ _ hc]

/-- Appending (by dup or push) a slot which the target still demands lowers
the shortfall by one and leaves the surplus unchanged. -/
theorem surplus_shortfall_append (cur tgt : Stack) (x : StackSlot)
    (h : cur.count x < tgt.count x) :
    slotSurplus (cur ++ [x]) tgt = slotSurplus cur tgt ∧
      slotShortfall cur tgt = slotShortfall (cur ++ [x]) tgt + 1 := by
  have hc : Multiset.count x (cur : Multiset StackSlot) < Multiset.count x (tgt : Multiset StackSlot) := by
    rw [Multiset.coe_count, Multiset.coe_count]; exact h
  constructor
  · unfold slotSurplus
    rw [coe_append_singleton, ms_addx_sub_of_lt _ _ _ hc]
  · unfold slotShortfall
    rw [coe_append_singleton, ms_sub_addx_of_lt _ _ _ hc]
    have hmem : x ∈ (tgt : Multiset StackSlot) - (cur : Multiset StackSlot) := by
      rw [← Multiset.count_pos, Multiset.count_sub]
      omega
    rw [Multiset.card_erase_of_mem hmem, Nat.pred_eq_sub_one]
    have hpos : 0 < Multiset.card ((tgt : Multiset StackSlot) - (cur : Multiset StackSlot)) :=
      Multiset.card_pos_iff_exists_mem.mpr ⟨x, hmem⟩
    omega

/-- Swapping the top with a deeper position permutes the stack, so both the
surplus and the shortfall are unchanged. -/
theorem swap_multiset_eq (cur : Stack) (o : Nat) (y top : StackSlot)
    (ho : cur[o]? = some y) (hlast : cur.getLast? = some top)
    (hne : o < cur.length - 1) :
    (((cur.set o top).set (cur.length - 1) y : Stack) : Multiset StackSlot) =
      (cur : Multiset StackSlot) := by
  obtain ⟨d, rfl⟩ := List.getLast?_eq_some_iff.mp hlast
  have hdl : (d ++ [top]).length = d.length + 1 := by simp
  have hod : o < d.length := by
    rw [hdl] at hne
    omega
  have hoy : d[o]? = some y := by
    rw [List.getElem?_append, if_pos hod] at ho
    exact ho
  rw [List.set_append_left _ _ hod]
  have hlen2 : (d ++ [top]).length - 1 = (d.set o top).length := by simp
  rw [hlen2, List.set_append_right _ _ (le_of_eq (by simp)), Nat.sub_self, List.set_cons_zero]
  have hdecomp : d.set o top = d.take o ++ top :: d.drop (o + 1) :=
    List.set_eq_take_cons_drop _ hod
  have hdecomp2 : d = d.take o ++ y :: d.drop (o + 1) := by
    conv_lhs => rw [← List.take_append_drop o d]
    congr 1
    rw [List.drop_eq_getElem_cons hod]
    rw [List.getElem?_eq_getElem hod] at hoy
    simp at hoy
    rw [hoy]
  rw [Multiset.coe_eq_coe, hdecomp]
  conv_rhs => rw [hdecomp2]
  rw [List.perm_iff_count]
  intro a
  simp only [List.count_append, List.count_cons, List.count_nil, beq_iff_eq]
  split_ifs <;> omega

/-! ### Mismatch bookkeeping for the measure -/

theorem card_filter_range_mono (k1 k2 : Nat) (h : k1 ≤ k2) (q : Nat → Prop) [DecidablePred q] :
    ((Finset.range k1).filter q).card ≤ ((Finset.range k2).filter q).card :=
  Finset.card_le_card (Finset.filter_subset_filter q (Finset.range_subset.mpr h))

theorem card_filter_range_succ_le (k : Nat) (q : Nat → Prop) [DecidablePred q] :
    ((Finset.range (k + 1)).filter q).card ≤ ((Finset.range k).filter q).card + 1 := by
  rw [Finset.range_succ, Finset.filter_insert]
  split_ifs
  · exact Finset.card_insert_le _ _
  · exact Nat.le_succ_of_le (le_refl _)

theorem card_filter_range_congr (k : Nat) (q1 q2 : Nat → Prop)
    [DecidablePred q1] [DecidablePred q2] (h : ∀ i < k, (q1 i ↔ q2 i)) :
    ((Finset.range k).filter q1).card = ((Finset.range k).filter q2).card := by
  congr 1
  apply Finset.filter_congr
  intro i hi
  rw [Finset.mem_range] at hi
  simpa using h i hi

/-- Popping the top slot cannot increase the mismatch count below the top. -/
theorem mismatch_pop_le (d tgt : Stack) (x : StackSlot) :
    mismatchBelowTop d tgt ≤ mismatchBelowTop (d ++ [x]) tgt := by
  unfold mismatchBelowTop
  have hlen : (d ++ [x]).length = d.length + 1 := by simp
  have hk : min (d.length - 1) tgt.length ≤ min ((d ++ [x]).length - 1) tgt.length := by
    rw [hlen]; omega
  calc ((Finset.range (min (d.length - 1) tgt.length)).filter
          (fun p => ¬ d[p]? = tgt[p]?)).card
      = ((Finset.range (min (d.length - 1) tgt.length)).filter
          (fun p => ¬ (d ++ [x])[p]? = tgt[p]?)).card := by
        apply card_filter_range_congr
        intro i hi
        have hid : i < d.length := by omega
        rw [List.getElem?_append, if_pos hid]
    _ ≤ _ := card_filter_range_mono _ _ hk _

/-- Appending a slot (dup or push) adds at most one new mismatch position. -/
theorem mismatch_append_le (cur tgt : Stack) (x : StackSlot) :
    mismatchBelowTop (cur ++ [x]) tgt ≤ mismatchBelowTop cur tgt + 1 := by
  unfold mismatchBelowTop
  have hlen : (cur ++ [x]).length = cur.length + 1 := by simp
  have hk : min ((cur ++ [x]).length - 1) tgt.length ≤ min (cur.length - 1) tgt.length + 1 := by
    rw [hlen]; omega
  calc ((Finset.range (min ((cur ++ [x]).length - 1) tgt.length)).filter
          (fun p => ¬ (cur ++ [x])[p]? = tgt[p]?)).card
      ≤ ((Finset.range (min (cur.length - 1) tgt.length + 1)).filter
          (fun p => ¬ (cur ++ [x])[p]? = tgt[p]?)).card := card_filter_range_mono _ _ hk _
    _ ≤ ((Finset.range (min (cur.length - 1) tgt.length)).filter
          (fun p => ¬ (cur ++ [x])[p]? = tgt[p]?)).card + 1 := card_filter_range_succ_le _ _
    _ = ((Finset.range (min (cur.length - 1) tgt.length)).filter
          (fun p => ¬ cur[p]? = tgt[p]?)).card + 1 := by
        congr 1
        apply card_filter_range_congr
        intro i hi
        have hid : i < cur.length := by omega
        rw [List.getElem?_append, if_pos hid]

/-- Swapping the top into a mismatched target position of the top slot
strictly lowers the mismatch count below the top. -/
theorem mismatch_swap_into_place (cur tgt : Stack) (p : Nat) (y top : StackSlot)
    (hp : cur[p]? = some y) (hlast : cur.getLast? = some top)
    (hplt : p < min (cur.length - 1) tgt.length)
    (hmis : ¬ cur[p]? = tgt[p]?) (htp : tgt[p]? = some top) :
    mismatchBelowTop ((cur.set p top).set (cur.length - 1) y) tgt + 1 ≤
      mismatchBelowTop cur tgt := by
  unfold mismatchBelowTop
  set c2 : Stack := (cur.set p top).set (cur.length - 1) y with hc2
  have hlen : c2.length = cur.length := by simp [hc2]
  rw [hlen]
  rw [Nat.succ_le_iff]
  apply Finset.card_lt_card
  rw [Finset.ssubset_iff_of_subset]
  · refine ⟨p, ?_, ?_⟩
    · rw [Finset.mem_filter, Finset.mem_range]
      exact ⟨hplt, hmis⟩
    · rw [Finset.mem_filter]
      rintro ⟨-, hqp⟩
      apply hqp
      have hplen : p < cur.length := by omega
      rw [hc2, List.getElem?_set, if_neg (by omega), List.getElem?_set,
        if_pos rfl, if_pos hplen, htp]
  · intro i hi
    rw [Finset.mem_filter, Finset.mem_range] at hi ⊢
    obtain ⟨hik, hqi⟩ := hi
    refine ⟨hik, ?_⟩
    by_cases hip : i = p
    · subst hip
      exfalso
      apply hqi
      have hplen : i < cur.length := by omega
      rw [hc2, List.getElem?_set, if_neg (by omega), List.getElem?_set,
        if_pos rfl, if_pos hplen, htp]
    · intro hcontra
      apply hqi
      rw [hc2, List.getElem?_set, if_neg (by omega), List.getElem?_set,
        if_neg (fun h => hip h.symm)]
      exact hcontra

/-- Swapping a mismatched deep slot with the top cannot increase the
mismatch count below the top. -/
theorem mismatch_swap_le (cur tgt : Stack) (o : Nat) (y top : StackSlot)
    (ho : cur[o]? = some y) (hlast : cur.getLast? = some top)
    (holt : o < cur.length - 1) (hmis : ¬ cur[o]? = tgt[o]?) :
    mismatchBelowTop ((cur.set o top).set (cur.length - 1) y) tgt ≤
      mismatchBelowTop cur tgt := by
  unfold mismatchBelowTop
  set c2 : Stack := (cur.set o top).set (cur.length - 1) y with hc2
  have hlen : c2.length = cur.length := by simp [hc2]
  rw [hlen]
  apply Finset.card_le_card
  intro i hi
  rw [Finset.mem_filter, Finset.mem_range] at hi ⊢
  obtain ⟨hik, hqi⟩ := hi
  refine ⟨hik, ?_⟩
  by_cases hio : i = o
  · subst hio
    exact hmis
  · intro hcontra
    apply hqi
    rw [hc2, List.getElem?_set, if_neg (by omega), List.getElem?_set,
      if_neg (fun h => hio h.symm)]
    exact hcontra

theorem topInPlaceBit_le_one (cur tgt : Stack) : topInPlaceBit cur tgt ≤ 1 := by
  unfold topInPlaceBit
  split_ifs <;> omega

theorem topInPlaceBit_of_inPlace (cur tgt : Stack) (top : StackSlot)
    (hne : cur ≠ []) (hlast : cur.getLast? = some top)
    (hcond : cur.length ≤ tgt.length ∧ tgt[cur.length - 1]? = some top) :
    topInPlaceBit cur tgt = 1 := by
  unfold topInPlaceBit
  rw [if_pos ⟨hne, hcond.1, by rw [hlast]; exact hcond.2⟩]

theorem topInPlaceBit_of_notInPlace (cur tgt : Stack) (top : StackSlot)
    (hlast : cur.getLast? = some top)
    (hcond : ¬ (cur.length ≤ tgt.length ∧ tgt[cur.length - 1]? = some top)) :
    topInPlaceBit cur tgt = 0 := by
  unfold topInPlaceBit
  rw [if_neg]
  rintro ⟨-, h1, h2⟩
  exact hcond ⟨h1, by rw [← hlast]; exact h2⟩

/-! ### Counting bridges and per-branch facts -/

theorem card_filter_range_eq_length (n : Nat) (q : Nat → Prop) [DecidablePred q] :
    ((Finset.range n).filter q).card = ((List.range n).filter (fun i => decide (q i))).length := by
  rw [Finset.card_filter]
  induction n with
  | zero => simp
  | succ n ih =>
    rw [Finset.sum_range_succ, List.range_succ, List.filter_append, List.length_append, ← ih]
    by_cases h : q n <;> simp [h]

/-- The number of occurrences of a slot equals the number of its offsets. -/
theorem count_eq_card_offsets (l : Stack) (x : StackSlot) :
    l.count x = ((Finset.range l.length).filter (fun i => l[i]? = some x)).card := by
  rw [card_filter_range_eq_length, ← findAllOffsets_length]
  rfl

theorem mem_findAllOffsets (l : Stack) (x : StackSlot) (p : Nat) :
    p ∈ findAllOffsets l x ↔ p < l.length ∧ l[p]? = some x := by
  unfold findAllOffsets
  rw [List.mem_filter, List.mem_range]
  simp

theorem getLast?_getElem? (l : Stack) (x : StackSlot) (h : l.getLast? = some x) :
    l[l.length - 1]? = some x := by
  rw [← List.getLast?_eq_getElem?]
  exact h

theorem applyShuffleOp_dup (cur : Stack) (slot : StackSlot) (k : Nat)
    (h : findOffset cur.reverse slot = some k) :
    applyShuffleOp cur (.dupOp (k + 1)) = cur ++ [slot] := by
  have hspec := findOffset_spec _ _ _ h
  have hk : k < cur.length := by
    rcases List.getElem?_eq_some.mp hspec with ⟨hlt, -⟩
    simpa using hlt
  rw [List.getElem?_reverse (by simpa using hk)] at hspec
  have harith : cur.length - (k + 1) = cur.length - 1 - k := by omega
  simp only [applyShuffleOp, harith, hspec]

theorem applyShuffleOp_swap (cur : Stack) (o : Nat) (y top : StackSlot)
    (ho : cur[o]? = some y) (hlast : cur.getLast? = some top) (hon : o < cur.length) :
    applyShuffleOp cur (.swapOp (cur.length - o - 1)) =
      (cur.set o top).set (cur.length - 1) y := by
  have harith : cur.length - 1 - (cur.length - o - 1) = o := by omega
  simp only [applyShuffleOp, swapTop, harith, hlast, ho]

/-! ### The two assertion branches of the shuffler are unreachable -/


theorem exists_getElem?_some (l : Stack) (p : Nat) (h : p < l.length) :
    ∃ s, l[p]? = some s := by
  rw [List.getElem?_eq_getElem h]
  exact ⟨_, rfl⟩

/-- In the "top is in place" branch, when there is nothing to dup, nothing to
push and nothing to swap, the two stacks are already equal (this is the
`yulAssert(_currentStack == _targetStack)` at the end of the branch). -/
theorem inPlace_exhausted_eq (cur tgt : Stack) (top : StackSlot)
    (hne : cur ≠ []) (hlast : cur.getLast? = some top)
    (hnopop : cur.count top ≤ tgt.count top)
    (hinpl : cur.length ≤ tgt.length ∧ tgt[cur.length - 1]? = some top)
    (hcnt : ∀ s ∈ cur, tgt.count s ≤ cur.count s)
    (hmem : ∀ s ∈ tgt, s ∈ cur)
    (hswap : ∀ (o : Nat) (s : StackSlot), cur[o]? = some s → tgt[o]? = some s ∨ s = top) :
    cur = tgt := by
  have hall : ∀ s, tgt.count s ≤ cur.count s := by
    intro s
    by_cases hs : s ∈ tgt
    · exact hcnt s (hmem s hs)
    · rw [List.count_eq_zero.mpr hs]
      omega
  have hle : (tgt : Multiset StackSlot) ≤ (cur : Multiset StackSlot) := by
    rw [Multiset.le_iff_count]
    intro a
    rw [Multiset.coe_count, Multiset.coe_count]
    exact hall a
  have hmle : tgt.length ≤ cur.length := by
    have := Multiset.card_le_card hle
    rwa [Multiset.coe_card, Multiset.coe_card] at this
  have hlen : cur.length = tgt.length := le_antisymm hinpl.1 hmle
  have heqms : (tgt : Multiset StackSlot) = (cur : Multiset StackSlot) := by
    apply Multiset.eq_of_le_of_card_le hle
    rw [Multiset.coe_card, Multiset.coe_card, hlen]
  have hcount : ∀ s, tgt.count s = cur.count s := by
    intro s
    have := congrArg (Multiset.count s) heqms
    rwa [Multiset.coe_count, Multiset.coe_count] at this
  set Fc := (Finset.range cur.length).filter (fun i => cur[i]? = some top) with hFc
  set Ft := (Finset.range tgt.length).filter (fun i => tgt[i]? = some top) with hFt
  have hsub : Ft ⊆ Fc := by
    intro p hp
    rw [hFt, Finset.mem_filter, Finset.mem_range] at hp
    obtain ⟨hpm, hptop⟩ := hp
    have hpn : p < cur.length := by omega
    obtain ⟨s, hs⟩ := exists_getElem?_some cur p hpn
    rcases hswap p s hs with h | h
    · rw [hFc, Finset.mem_filter, Finset.mem_range]
      have hst : s = top := by
        rw [h] at hptop
        exact Option.some.inj hptop
      exact ⟨hpn, hst ▸ hs⟩
    · rw [hFc, Finset.mem_filter, Finset.mem_range]
      exact ⟨hpn, h ▸ hs⟩
  have hcardF : Fc.card ≤ Ft.card := by
    rw [hFc, hFt, ← count_eq_card_offsets, ← count_eq_card_offsets]
    rw [hcount top]
  have hFeq : Ft = Fc := Finset.eq_of_subset_of_card_le hsub hcardF
  apply List.ext_getElem?
  intro p
  by_cases hpn : p < cur.length
  · obtain ⟨s, hs⟩ := exists_getElem?_some cur p hpn
    rcases hswap p s hs with h | h
    · rw [hs, h]
    · subst h
      have hpFc : p ∈ Fc := by
        rw [hFc, Finset.mem_filter, Finset.mem_range]
        exact ⟨hpn, hs⟩
      rw [← hFeq, hFt, Finset.mem_filter] at hpFc
      rw [hs, hpFc.2]
  · have h1 : cur[p]? = none := by
      rw [List.getElem?_eq_none_iff]
      omega
    have h2 : tgt[p]? = none := by
      rw [List.getElem?_eq_none_iff]
      omega
    rw [h1, h2]

/-- In the "top is not in place" branch, when no swap target is available
and there is nothing to dup and nothing to push, the branch conditions are
contradictory (this is the `yulAssert(false)` of the branch). -/
theorem notInPlace_exhausted_false (cur tgt : Stack) (top : StackSlot)
    (hne : cur ≠ []) (hlast : cur.getLast? = some top)
    (hnopop : cur.count top ≤ tgt.count top)
    (hninpl : ¬ (cur.length ≤ tgt.length ∧ tgt[cur.length - 1]? = some top))
    (hcnt : ∀ s ∈ cur, tgt.count s ≤ cur.count s)
    (hmem : ∀ s ∈ tgt, s ∈ cur)
    (hEone : ∀ p ∈ findAllOffsets tgt top, ¬ cur.length ≤ p ∧ cur[p]? = tgt[p]?) :
    False := by
  have hall : ∀ s, tgt.count s ≤ cur.count s := by
    intro s
    by_cases hs : s ∈ tgt
    · exact hcnt s (hmem s hs)
    · rw [List.count_eq_zero.mpr hs]
      omega
  have hnpos : 0 < cur.length := List.length_pos.mpr hne
  set Fc := (Finset.range cur.length).filter (fun i => cur[i]? = some top) with hFc
  set Ft := (Finset.range tgt.length).filter (fun i => tgt[i]? = some top) with hFt
  have hsub : Ft ⊆ Fc := by
    intro p hp
    rw [hFt, Finset.mem_filter, Finset.mem_range] at hp
    obtain ⟨hpm, hptop⟩ := hp
    have hpmem : p ∈ findAllOffsets tgt top := by
      rw [mem_findAllOffsets]
      exact ⟨hpm, hptop⟩
    obtain ⟨hpn, hpeq⟩ := hEone p hpmem
    rw [hFc, Finset.mem_filter, Finset.mem_range]
    refine ⟨by omega, ?_⟩
    rw [hpeq, hptop]
  have htopc : cur[cur.length - 1]? = some top := getLast?_getElem? _ _ hlast
  have hlastFc : cur.length - 1 ∈ Fc := by
    rw [hFc, Finset.mem_filter, Finset.mem_range]
    exact ⟨by omega, htopc⟩
  have hlastFt : cur.length - 1 ∉ Ft := by
    intro hmem'
    rw [hFt, Finset.mem_filter, Finset.mem_range] at hmem'
    obtain ⟨h1, h2⟩ := hmem'
    exact hninpl ⟨by omega, h2⟩
  have hss : Ft ⊂ Fc := by
    rw [Finset.ssubset_iff_of_subset hsub]
    exact ⟨cur.length - 1, hlastFc, hlastFt⟩
  have hlt : Ft.card < Fc.card := Finset.card_lt_card hss
  rw [hFc, hFt, ← count_eq_card_offsets, ← count_eq_card_offsets] at hlt
  omega

/-! ### Totality and correctness of the shuffler -/

theorem length_le_of_counts (cur tgt : Stack)
    (hcnt : ∀ s ∈ cur, tgt.count s ≤ cur.count s)
    (hmem : ∀ s ∈ tgt, s ∈ cur) : tgt.length ≤ cur.length := by
  have hall : ∀ s, tgt.count s ≤ cur.count s := by
    intro s
    by_cases hs : s ∈ tgt
    · exact hcnt s (hmem s hs)
    · rw [List.count_eq_zero.mpr hs]
      omega
  have hle : (tgt : Multiset StackSlot) ≤ (cur : Multiset StackSlot) := by
    rw [Multiset.le_iff_count]
    intro a
    rw [Multiset.coe_count, Multiset.coe_count]
    exact hall a
  have := Multiset.card_le_card hle
  rwa [Multiset.coe_card, Multiset.coe_card] at this

/-- Main induction: with fuel exceeding the measure, the embedded
`createStackLayout` recursion succeeds, ends in exactly the target stack,
and its callback trace replays to the target. -/
theorem createStackLayoutAux_total :
    ∀ (N : Nat) (cur tgt : Stack), shuffleMeasure cur tgt ≤ N →
      ∃ ops, createStackLayoutAux (N + 1) true cur tgt = some (ops, tgt, []) ∧
        applyShuffleOps cur ops = tgt := by
  intro N
  induction N using Nat.strong_induction_on with
  | _ N IH =>
  intro cur tgt hmeas
  by_cases heq : cur = tgt
  · subst heq
    refine ⟨[], ?_, rfl⟩
    rw [createStackLayoutAux, if_pos rfl]
  by_cases hemp : cur = []
  · subst hemp
    refine ⟨tgt.map ShuffleOp.pushOp, ?_, ?_⟩
    · rw [createStackLayoutAux, if_neg heq]
      simp only [reduceIte]
    · rw [applyShuffleOps_pushAll]
      rfl
  obtain ⟨top, hlast⟩ : ∃ top, cur.getLast? = some top := by
    cases hc : cur.getLast? with
    | none => exact absurd (List.getLast?_eq_none_iff.mp hc) hemp
    | some t0 => exact ⟨t0, rfl⟩
  have hnpos : 0 < cur.length := List.length_pos.mpr hemp
  have htopc : cur[cur.length - 1]? = some top := getLast?_getElem? _ _ hlast
  by_cases hpop : (findAllOffsets tgt top).length < (findAllOffsets cur top).length
  · -- pop an over-represented top
    obtain ⟨d, hd⟩ := List.getLast?_eq_some_iff.mp hlast
    have hcountlt : tgt.count top < cur.count top := by
      rwa [findAllOffsets_length, findAllOffsets_length] at hpop
    have hcntd : tgt.count top ≤ d.count top := by
      have hcc : cur.count top = d.count top + 1 := by
        rw [hd, List.count_append]
        simp
      omega
    obtain ⟨hss1, hss2⟩ := surplus_shortfall_pop d tgt top hcntd
    have hm := mismatch_pop_le d tgt top
    have hbd := topInPlaceBit_le_one d tgt
    have hdrop : cur.dropLast = d := by
      rw [hd]
      simp
    have hlt : shuffleMeasure d tgt < shuffleMeasure cur tgt := by
      unfold shuffleMeasure
      rw [hd]
      omega
    have hNeq : N - 1 + 1 = N := by omega
    obtain ⟨ops, hrun, happ⟩ := IH (N - 1) (by omega) d tgt (by omega)
    rw [hNeq] at hrun
    refine ⟨.popOp :: ops, ?_, ?_⟩
    · rw [createStackLayoutAux, if_neg heq, if_neg hemp, hlast]
      simp only [hpop, reduceIte, hdrop, hrun, List.nil_append]
    · show applyShuffleOps cur.dropLast ops = tgt
      rw [hdrop]
      exact happ
  · by_cases hinpl : cur.length ≤ tgt.length ∧ tgt[cur.length - 1]? = some top
    · -- top is in place
      cases hdf : cur.enum.find? (fun p =>
          decide ((findAllOffsets cur p.2).length < (findAllOffsets tgt p.2).length)) with
      | some pr =>
        obtain ⟨o, slot⟩ := pr
        have hos : cur[o]? = some slot :=
          List.mem_enum_iff_getElem?.mp (List.mem_of_find?_eq_some hdf)
        have hcount : cur.count slot < tgt.count slot := by
          have hb := List.find?_some hdf
          simp only [decide_eq_true_eq] at hb
          rwa [findAllOffsets_length, findAllOffsets_length] at hb
        cases hko : findOffset cur.reverse slot with
        | none =>
          exfalso
          have : slot ∉ cur.reverse := (findOffset_eq_none_iff _ _).mp hko
          exact this (List.mem_reverse.mpr (List.getElem?_mem hos))
        | some k =>
          obtain ⟨hss1, hss2⟩ := surplus_shortfall_append cur tgt slot hcount
          have hm := mismatch_append_le cur tgt slot
          have hb := topInPlaceBit_le_one (cur ++ [slot]) tgt
          have hlt : shuffleMeasure (cur ++ [slot]) tgt < shuffleMeasure cur tgt := by
            unfold shuffleMeasure
            omega
          have hNeq : N - 1 + 1 = N := by omega
          obtain ⟨ops, hrun, happ⟩ := IH (N - 1) (by omega) (cur ++ [slot]) tgt (by omega)
          rw [hNeq] at hrun
          refine ⟨.dupOp (k + 1) :: ops, ?_, ?_⟩
          · rw [createStackLayoutAux, if_neg heq, if_neg hemp, hlast]
            simp only [hpop, reduceIte, hinpl.1, hinpl.2, and_self, hdf, hko, hrun, List.nil_append]
          · rw [show applyShuffleOps cur (ShuffleOp.dupOp (k + 1) :: ops) =
                applyShuffleOps (applyShuffleOp cur (.dupOp (k + 1))) ops from rfl]
            rw [applyShuffleOp_dup cur slot k hko]
            exact happ
      | none =>
        cases htf : tgt.find? (fun slot => decide (findOffset cur slot = none)) with
        | some slot =>
          have hmemt : slot ∈ tgt := List.mem_of_find?_eq_some htf
          have hnone : findOffset cur slot = none := by
            have hb := List.find?_some htf
            simpa using hb
          have hnotc : slot ∉ cur := (findOffset_eq_none_iff _ _).mp hnone
          have hcount : cur.count slot < tgt.count slot := by
            have h1 : cur.count slot = 0 := List.count_eq_zero.mpr hnotc
            have h2 : 0 < tgt.count slot := List.count_pos_iff.mpr hmemt
            omega
          obtain ⟨hss1, hss2⟩ := surplus_shortfall_append cur tgt slot hcount
          have hm := mismatch_append_le cur tgt slot
          have hb := topInPlaceBit_le_one (cur ++ [slot]) tgt
          have hlt : shuffleMeasure (cur ++ [slot]) tgt < shuffleMeasure cur tgt := by
            unfold shuffleMeasure
            omega
          have hNeq : N - 1 + 1 = N := by omega
          obtain ⟨ops, hrun, happ⟩ := IH (N - 1) (by omega) (cur ++ [slot]) tgt (by omega)
          rw [hNeq] at hrun
          refine ⟨.pushOp slot :: ops, ?_, ?_⟩
          · rw [createStackLayoutAux, if_neg heq, if_neg hemp, hlast]
            simp only [hpop, reduceIte, hinpl.1, hinpl.2, and_self, hdf, htf, hrun, List.nil_append]
          · rw [show applyShuffleOps cur (ShuffleOp.pushOp slot :: ops) =
                applyShuffleOps (cur ++ [slot]) ops from rfl]
            exact happ
        | none =>
          cases hsf : cur.enum.find? (fun p =>
              decide (¬ tgt[p.1]? = some p.2 ∧ ¬ p.2 = top)) with
          | some pr =>
            obtain ⟨o, slot⟩ := pr
            have hos : cur[o]? = some slot :=
              List.mem_enum_iff_getElem?.mp (List.mem_of_find?_eq_some hsf)
            have hbp := List.find?_some hsf
            simp only [decide_eq_true_eq] at hbp
            obtain ⟨hmis0, hsto⟩ := hbp
            have hon : o < cur.length := by
              rcases List.getElem?_eq_some.mp hos with ⟨h, -⟩
              exact h
            have hone : o ≠ cur.length - 1 := by
              intro hcontra
              rw [hcontra, htopc] at hos
              exact hsto (Option.some.inj hos).symm
            have holt : o < cur.length - 1 := by omega
            have hmis : ¬ cur[o]? = tgt[o]? := by
              rw [hos]
              intro hcontra
              exact hmis0 hcontra.symm
            have hmseq := swap_multiset_eq cur o slot top hos hlast holt
            have hS : slotSurplus ((cur.set o top).set (cur.length - 1) slot) tgt =
                slotSurplus cur tgt := by
              unfold slotSurplus
              rw [hmseq]
            have hF : slotShortfall ((cur.set o top).set (cur.length - 1) slot) tgt =
                slotShortfall cur tgt := by
              unfold slotShortfall
              rw [hmseq]
            have hM := mismatch_swap_le cur tgt o slot top hos hlast holt hmis
            have hb1 : topInPlaceBit cur tgt = 1 :=
              topInPlaceBit_of_inPlace cur tgt top hemp hlast hinpl
            have hlen2 : ((cur.set o top).set (cur.length - 1) slot).length = cur.length := by
              simp
            have hlen1 : (cur.set o top).length = cur.length := by simp
            have hlast' : ((cur.set o top).set (cur.length - 1) slot).getLast? = some slot := by
              rw [List.getLast?_eq_getElem?, hlen2, List.getElem?_set, if_pos rfl, hlen1,
                if_pos (by omega)]
            have hb0 : topInPlaceBit ((cur.set o top).set (cur.length - 1) slot) tgt = 0 := by
              apply topInPlaceBit_of_notInPlace _ _ slot hlast'
              rw [hlen2]
              rintro ⟨-, hB⟩
              rw [hinpl.2] at hB
              exact hsto (Option.some.inj hB).symm
            have hlt : shuffleMeasure ((cur.set o top).set (cur.length - 1) slot) tgt <
                shuffleMeasure cur tgt := by
              unfold shuffleMeasure
              rw [hS, hF, hb0, hb1]
              omega
            have hNeq : N - 1 + 1 = N := by omega
            obtain ⟨ops, hrun, happ⟩ :=
              IH (N - 1) (by omega) ((cur.set o top).set (cur.length - 1) slot) tgt (by omega)
            rw [hNeq] at hrun
            refine ⟨.swapOp (cur.length - o - 1) :: ops, ?_, ?_⟩
            · rw [createStackLayoutAux, if_neg heq, if_neg hemp, hlast]
              simp only [hpop, reduceIte, hinpl.1, hinpl.2, and_self, hdf, htf, hsf, hrun, List.nil_append]
            · rw [show applyShuffleOps cur (ShuffleOp.swapOp (cur.length - o - 1) :: ops) =
                  applyShuffleOps (applyShuffleOp cur (.swapOp (cur.length - o - 1))) ops from rfl]
              rw [applyShuffleOp_swap cur o slot top hos hlast hon]
              exact happ
          | none =>
            exfalso
            apply heq
            have hnopop2 : cur.count top ≤ tgt.count top := by
              rw [findAllOffsets_length, findAllOffsets_length] at hpop
              omega
            have hcnt : ∀ s ∈ cur, tgt.count s ≤ cur.count s := by
              intro s hs
              obtain ⟨o, ho⟩ := List.mem_iff_getElem?.mp hs
              have hpair : (o, s) ∈ cur.enum := List.mem_enum_iff_getElem?.mpr ho
              have hno := List.find?_eq_none.mp hdf _ hpair
              simp only [decide_eq_true_eq] at hno
              rw [findAllOffsets_length, findAllOffsets_length] at hno
              omega
            have hmem : ∀ s ∈ tgt, s ∈ cur := by
              intro s hs
              have hno := List.find?_eq_none.mp htf _ hs
              simp only [decide_eq_true_eq] at hno
              by_contra hcontra
              exact hno ((findOffset_eq_none_iff _ _).mpr hcontra)
            have hswap : ∀ (o : Nat) (s : StackSlot), cur[o]? = some s →
                tgt[o]? = some s ∨ s = top := by
              intro o s ho
              have hpair : (o, s) ∈ cur.enum := List.mem_enum_iff_getElem?.mpr ho
              have hno := List.find?_eq_none.mp hsf _ hpair
              simp only [decide_eq_true_eq] at hno
              rcases not_and_or.mp hno with h | h
              · exact Or.inl (not_not.mp h)
              · exact Or.inr (not_not.mp h)
            exact inPlace_exhausted_eq cur tgt top hemp hlast hnopop2 hinpl hcnt hmem hswap
    · -- top is not in place
      cases hef : (findAllOffsets tgt top).find? (fun p =>
          decide (cur.length ≤ p) || decide (¬ cur[p]? = tgt[p]?)) with
      | some p =>
        by_cases hpn : p < cur.length
        · -- swap the top down into a wrong target position
          have hpmem : p ∈ findAllOffsets tgt top := List.mem_of_find?_eq_some hef
          rw [mem_findAllOffsets] at hpmem
          obtain ⟨hpm, hptop⟩ := hpmem
          have hbp := List.find?_some hef
          rw [Bool.or_eq_true, decide_eq_true_eq, decide_eq_true_eq] at hbp
          have hmis : ¬ cur[p]? = tgt[p]? := by
            rcases hbp with h | h
            · omega
            · exact h
          obtain ⟨y, hy⟩ := exists_getElem?_some cur p hpn
          have hpne : p ≠ cur.length - 1 := by
            intro hcontra
            apply hmis
            rw [hcontra, htopc, ← hcontra, hptop]
          have hplt : p < cur.length - 1 := by omega
          have hmseq := swap_multiset_eq cur p y top hy hlast hplt
          have hS : slotSurplus ((cur.set p top).set (cur.length - 1) y) tgt =
              slotSurplus cur tgt := by
            unfold slotSurplus
            rw [hmseq]
          have hF : slotShortfall ((cur.set p top).set (cur.length - 1) y) tgt =
              slotShortfall cur tgt := by
            unfold slotShortfall
            rw [hmseq]
          have hM := mismatch_swap_into_place cur tgt p y top hy hlast
            (by omega) hmis hptop
          have hb0 : topInPlaceBit cur tgt = 0 :=
            topInPlaceBit_of_notInPlace cur tgt top hlast hinpl
          have hb' := topInPlaceBit_le_one ((cur.set p top).set (cur.length - 1) y) tgt
          have hlt : shuffleMeasure ((cur.set p top).set (cur.length - 1) y) tgt <
              shuffleMeasure cur tgt := by
            unfold shuffleMeasure
            rw [hS, hF, hb0]
            omega
          have hNeq : N - 1 + 1 = N := by omega
          obtain ⟨ops, hrun, happ⟩ :=
            IH (N - 1) (by omega) ((cur.set p top).set (cur.length - 1) y) tgt (by omega)
          rw [hNeq] at hrun
          refine ⟨.swapOp (cur.length - p - 1) :: ops, ?_, ?_⟩
          · rw [createStackLayoutAux, if_neg heq, if_neg hemp, hlast]
            simp only [hpop, reduceIte, hinpl, hef, hpn, hy, hrun, List.nil_append]
          · rw [show applyShuffleOps cur (ShuffleOp.swapOp (cur.length - p - 1) :: ops) =
                applyShuffleOps (applyShuffleOp cur (.swapOp (cur.length - p - 1))) ops from rfl]
            rw [applyShuffleOp_swap cur p y top hy hlast hpn]
            exact happ
        · -- the found target position is beyond the current stack: dup or push
          have hpmem : p ∈ findAllOffsets tgt top := List.mem_of_find?_eq_some hef
          rw [mem_findAllOffsets] at hpmem
          cases hdf : cur.enum.find? (fun p =>
              decide ((findAllOffsets cur p.2).length < (findAllOffsets tgt p.2).length)) with
          | some pr =>
            obtain ⟨o, slot⟩ := pr
            have hos : cur[o]? = some slot :=
              List.mem_enum_iff_getElem?.mp (List.mem_of_find?_eq_some hdf)
            have hcount : cur.count slot < tgt.count slot := by
              have hb := List.find?_some hdf
              simp only [decide_eq_true_eq] at hb
              rwa [findAllOffsets_length, findAllOffsets_length] at hb
            cases hko : findOffset cur.reverse slot with
            | none =>
              exfalso
              have : slot ∉ cur.reverse := (findOffset_eq_none_iff _ _).mp hko
              exact this (List.mem_reverse.mpr (List.getElem?_mem hos))
            | some k =>
              obtain ⟨hss1, hss2⟩ := surplus_shortfall_append cur tgt slot hcount
              have hm := mismatch_append_le cur tgt slot
              have hb := topInPlaceBit_le_one (cur ++ [slot]) tgt
              have hlt : shuffleMeasure (cur ++ [slot]) tgt < shuffleMeasure cur tgt := by
                unfold shuffleMeasure
                omega
              have hNeq : N - 1 + 1 = N := by omega
              obtain ⟨ops, hrun, happ⟩ := IH (N - 1) (by omega) (cur ++ [slot]) tgt (by omega)
              rw [hNeq] at hrun
              refine ⟨.dupOp (k + 1) :: ops, ?_, ?_⟩
              · rw [createStackLayoutAux, if_neg heq, if_neg hemp, hlast]
                simp only [hpop, reduceIte, hinpl, hef, hpn, hdf, hko, hrun, List.nil_append]
              · rw [show applyShuffleOps cur (ShuffleOp.dupOp (k + 1) :: ops) =
                    applyShuffleOps (applyShuffleOp cur (.dupOp (k + 1))) ops from rfl]
                rw [applyShuffleOp_dup cur slot k hko]
                exact happ
          | none =>
            cases htf : tgt.find? (fun slot => decide (findOffset cur slot = none)) with
            | some slot =>
              have hmemt : slot ∈ tgt := List.mem_of_find?_eq_some htf
              have hnone : findOffset cur slot = none := by
                have hb := List.find?_some htf
                simpa using hb
              have hnotc : slot ∉ cur := (findOffset_eq_none_iff _ _).mp hnone
              have hcount : cur.count slot < tgt.count slot := by
                have h1 : cur.count slot = 0 := List.count_eq_zero.mpr hnotc
                have h2 : 0 < tgt.count slot := List.count_pos_iff.mpr hmemt
                omega
              obtain ⟨hss1, hss2⟩ := surplus_shortfall_append cur tgt slot hcount
              have hm := mismatch_append_le cur tgt slot
              have hb := topInPlaceBit_le_one (cur ++ [slot]) tgt
              have hlt : shuffleMeasure (cur ++ [slot]) tgt < shuffleMeasure cur tgt := by
                unfold shuffleMeasure
                omega
              have hNeq : N - 1 + 1 = N := by omega
              obtain ⟨ops, hrun, happ⟩ := IH (N - 1) (by omega) (cur ++ [slot]) tgt (by omega)
              rw [hNeq] at hrun
              refine ⟨.pushOp slot :: ops, ?_, ?_⟩
              · rw [createStackLayoutAux, if_neg heq, if_neg hemp, hlast]
                simp only [hpop, reduceIte, hinpl, hef, hpn, hdf, htf, hrun, List.nil_append]
              · rw [show applyShuffleOps cur (ShuffleOp.pushOp slot :: ops) =
                    applyShuffleOps (cur ++ [slot]) ops from rfl]
                exact happ
            | none =>
              exfalso
              have hcnt : ∀ s ∈ cur, tgt.count s ≤ cur.count s := by
                intro s hs
                obtain ⟨o, ho⟩ := List.mem_iff_getElem?.mp hs
                have hpair : (o, s) ∈ cur.enum := List.mem_enum_iff_getElem?.mpr ho
                have hno := List.find?_eq_none.mp hdf _ hpair
                simp only [decide_eq_true_eq] at hno
                rw [findAllOffsets_length, findAllOffsets_length] at hno
                omega
              have hmem : ∀ s ∈ tgt, s ∈ cur := by
                intro s hs
                have hno := List.find?_eq_none.mp htf _ hs
                simp only [decide_eq_true_eq] at hno
                by_contra hcontra
                exact hno ((findOffset_eq_none_iff _ _).mpr hcontra)
              have hml := length_le_of_counts cur tgt hcnt hmem
              omega
      | none =>
        -- no swap target: dup or push, and the assertion branch is impossible
        cases hdf : cur.enum.find? (fun p =>
            decide ((findAllOffsets cur p.2).length < (findAllOffsets tgt p.2).length)) with
        | some pr =>
          obtain ⟨o, slot⟩ := pr
          have hos : cur[o]? = some slot :=
            List.mem_enum_iff_getElem?.mp (List.mem_of_find?_eq_some hdf)
          have hcount : cur.count slot < tgt.count slot := by
            have hb := List.find?_some hdf
            simp only [decide_eq_true_eq] at hb
            rwa [findAllOffsets_length, findAllOffsets_length] at hb
          cases hko : findOffset cur.reverse slot with
          | none =>
            exfalso
            have : slot ∉ cur.reverse := (findOffset_eq_none_iff _ _).mp hko
            exact this (List.mem_reverse.mpr (List.getElem?_mem hos))
          | some k =>
            obtain ⟨hss1, hss2⟩ := surplus_shortfall_append cur tgt slot hcount
            have hm := mismatch_append_le cur tgt slot
            have hb := topInPlaceBit_le_one (cur ++ [slot]) tgt
            have hlt : shuffleMeasure (cur ++ [slot]) tgt < shuffleMeasure cur tgt := by
              unfold shuffleMeasure
              omega
            have hNeq : N - 1 + 1 = N := by omega
            obtain ⟨ops, hrun, happ⟩ := IH (N - 1) (by omega) (cur ++ [slot]) tgt (by omega)
            rw [hNeq] at hrun
            refine ⟨.dupOp (k + 1) :: ops, ?_, ?_⟩
            · rw [createStackLayoutAux, if_neg heq, if_neg hemp, hlast]
              simp only [hpop, reduceIte, hinpl, hef, hdf, hko, hrun, List.nil_append]
            · rw [show applyShuffleOps cur (ShuffleOp.dupOp (k + 1) :: ops) =
                  applyShuffleOps (applyShuffleOp cur (.dupOp (k + 1))) ops from rfl]
              rw [applyShuffleOp_dup cur slot k hko]
              exact happ
        | none =>
          cases htf : tgt.find? (fun slot => decide (findOffset cur slot = none)) with
          | some slot =>
            have hmemt : slot ∈ tgt := List.mem_of_find?_eq_some htf
            have hnone : findOffset cur slot = none := by
              have hb := List.find?_some htf
              simpa using hb
            have hnotc : slot ∉ cur := (findOffset_eq_none_iff _ _).mp hnone
            have hcount : cur.count slot < tgt.count slot := by
              have h1 : cur.count slot = 0 := List.count_eq_zero.mpr hnotc
              have h2 : 0 < tgt.count slot := List.count_pos_iff.mpr hmemt
              omega
            obtain ⟨hss1, hss2⟩ := surplus_shortfall_append cur tgt slot hcount
            have hm := mismatch_append_le cur tgt slot
            have hb := topInPlaceBit_le_one (cur ++ [slot]) tgt
            have hlt : shuffleMeasure (cur ++ [slot]) tgt < shuffleMeasure cur tgt := by
              unfold shuffleMeasure
              omega
            have hNeq : N - 1 + 1 = N := by omega
            obtain ⟨ops, hrun, happ⟩ := IH (N - 1) (by omega) (cur ++ [slot]) tgt (by omega)
            rw [hNeq] at hrun
            refine ⟨.pushOp slot :: ops, ?_, ?_⟩
            · rw [createStackLayoutAux, if_neg heq, if_neg hemp, hlast]
              simp only [hpop, reduceIte, hinpl, hef, hdf, htf, hrun, List.nil_append]
            · rw [show applyShuffleOps cur (ShuffleOp.pushOp slot :: ops) =
                  applyShuffleOps (cur ++ [slot]) ops from rfl]
              exact happ
          | none =>
            exfalso
            have hnopop2 : cur.count top ≤ tgt.count top := by
              rw [findAllOffsets_length, findAllOffsets_length] at hpop
              omega
            have hcnt : ∀ s ∈ cur, tgt.count s ≤ cur.count s := by
              intro s hs
              obtain ⟨o, ho⟩ := List.mem_iff_getElem?.mp hs
              have hpair : (o, s) ∈ cur.enum := List.mem_enum_iff_getElem?.mpr ho
              have hno := List.find?_eq_none.mp hdf _ hpair
              simp only [decide_eq_true_eq] at hno
              rw [findAllOffsets_length, findAllOffsets_length] at hno
              omega
            have hmem : ∀ s ∈ tgt, s ∈ cur := by
              intro s hs
              have hno := List.find?_eq_none.mp htf _ hs
              simp only [decide_eq_true_eq] at hno
              by_contra hcontra
              exact hno ((findOffset_eq_none_iff _ _).mpr hcontra)
            have hEone : ∀ p ∈ findAllOffsets tgt top,
                ¬ cur.length ≤ p ∧ cur[p]? = tgt[p]? := by
              intro p hp
              have hno := List.find?_eq_none.mp hef _ hp
              simp only [Bool.or_eq_true, decide_eq_true_eq, not_or] at hno
              exact ⟨hno.1, not_not.mp hno.2⟩
            exact notInPlace_exhausted_false cur tgt top hemp hlast hnopop2 hinpl
              hcnt hmem hEone

/-- Every result produced by the (always silent) shuffler carries no
diagnostic output. -/
theorem createStackLayoutAux_logs_empty (fuel : Nat) :
    ∀ (cur tgt : Stack) (ops : List ShuffleOp) (fin : Stack) (logs : List String),
      createStackLayoutAux fuel true cur tgt = some (ops, fin, logs) → logs = [] := by
  induction fuel with
  | zero =>
    intro cur tgt ops fin logs h
    simp [createStackLayoutAux] at h
  | succ fuel IH =>
    intro cur tgt ops fin logs h
    rw [createStackLayoutAux] at h
    simp only [reduceIte, List.nil_append] at h
    repeat' split at h
    all_goals try (exact Option.noConfusion h)
    all_goals simp only [Option.some.injEq, Prod.mk.injEq] at h
    all_goals obtain ⟨h1, h2, h3⟩ := h
    all_goals subst h3
    all_goals first
      | rfl
      | exact IH _ _ _ _ _ (by assumption)

/-- C2 (also usable for C8/C10 contexts): the shuffler always terminates
with the target as final stack and a faithful callback trace. -/
theorem createStackLayout_total_correct (cur tgt : Stack) (silent : Bool) :
    ∃ (fuel : Nat) (ops : List ShuffleOp),
      createStackLayout fuel cur tgt silent = some (ops, tgt, []) ∧
        applyShuffleOps cur ops = tgt := by
  obtain ⟨ops, hrun, happ⟩ :=
    createStackLayoutAux_total (shuffleMeasure cur tgt) cur tgt (le_refl _)
  exact ⟨shuffleMeasure cur tgt + 1, ops, hrun, happ⟩

/-! ### Claims C2, C8 and C10 -/

/-- C2: For every pair of stacks (current, target), the shuffler
`createStackLayout(current, target, swap, dup, push, pop)` terminates (some
finite fuel makes the embedded recursion return), and when it returns the
mutated current stack is equal to the target; moreover the sequence of
issued swap/dup/push/pop callbacks, interpreted as stack operations,
transforms the original current stack into the target. -/
theorem C2_shuffler_terminates_and_correct (cur tgt : Stack) (silent : Bool) :
    ∃ (fuel : Nat) (ops : List ShuffleOp),
      createStackLayout fuel cur tgt silent = some (ops, tgt, []) ∧
        applyShuffleOps cur ops = tgt := by
  obtain ⟨ops, hrun, happ⟩ :=
    createStackLayoutAux_total (shuffleMeasure cur tgt) cur tgt (le_refl _)
  exact ⟨shuffleMeasure cur tgt + 1, ops, hrun, happ⟩

/-- C8: For every stack `s`, running the shuffler with current and target
both equal to `s` returns immediately (for any positive fuel) without
invoking any of the swap/dup/push/pop callbacks and leaves the stack
unchanged. -/
theorem C8_shuffler_identity_no_ops (s : Stack) (silent : Bool) (fuel : Nat) :
    createStackLayout (fuel + 1) s s silent = some ([], s, []) := by
  rw [createStackLayout, createStackLayoutAux, if_pos rfl]

/-- C10: The observable behavior of `createStackLayout` is independent of
its `_silent` argument: two runs on the same stacks with different `_silent`
values produce identical results (callback sequence and final stack), and no
diagnostic output occurs in either run, because the parameter is
unconditionally overwritten to `true` on entry. -/
theorem C10_shuffler_silent_independent (fuel : Nat) (cur tgt : Stack) (s1 s2 : Bool) :
    createStackLayout fuel cur tgt s1 = createStackLayout fuel cur tgt s2 ∧
      ∀ (ops : List ShuffleOp) (fin : Stack) (logs : List String),
        createStackLayout fuel cur tgt s1 = some (ops, fin, logs) → logs = [] := by
  refine ⟨rfl, ?_⟩
  intro ops fin logs h
  exact createStackLayoutAux_logs_empty fuel cur tgt ops fin logs h

/-- Witness for C10 at a concrete input: the run on current `[junk]` and
empty target pops once in both silent modes, with no diagnostics. -/
theorem C10_shuffler_silent_independent_witness :
    createStackLayout 2 [StackSlot.junk] [] true = createStackLayout 2 [StackSlot.junk] [] false ∧
      ([] : List String) = [] :=
  ⟨(C10_shuffler_silent_independent 2 [StackSlot.junk] [] true false).1,
   (C10_shuffler_silent_independent 2 [StackSlot.junk] [] true false).2
     [ShuffleOp.popOp] [] [] (by decide)⟩

/-! ### Stack layout generator: per-operation back-propagation -/

/-- DFG operation payloads (DataFlowGraph.h): a builtin call, a user
function call, or an assignment carrying the assigned variables (by
variable identity). -/
inductive OperationKind where
  | builtinCall (arguments : Nat)
  | functionCall
  | assignment (vars : List Nat)
  deriving DecidableEq, Repr

/-- DFG::Operation — input and output stacks plus the operation payload. -/
structure Operation where
  input : Stack
  output : Stack
  operation : OperationKind
  deriving DecidableEq, Repr

/-- Modelled from the spec: `util::permuteDup` (libsolutil/Permutations.h)
is not among the sources under verification.  Spec §4.D step 2 describes the
permute-with-dup driver fed by `createIdealLayout`
(StackLayoutGenerator.cpp, lines 56-113): slots carrying target-position
sets are placed at exactly the recorded target positions — every exit-stack
offset holding that output value — while slots marked "came from previous
position i" stay where they are, so the ideal layout before the operation
consists of exactly the exit-stack slots at non-target positions, in order.
That is the exit stack with every output-valued slot removed. -/
def createIdealLayout (post : Stack) (output : Stack) : Stack :=
  post.filter (fun s => ¬ s ∈ output)

/-- A slot the propagation may always drop and re-push: a literal, junk, or
a function call return label (StackLayoutGenerator.cpp lines 161-162). -/
def canAlwaysPush : StackSlot → Bool
  | .litSlot _ => true
  | .junk => true
  | .retLabel _ => true
  | _ => false

/-- The compression loop of propagateStackThroughOperation (lines 160-168),
viewed from the top of the stack (head = top): pop the top while it can
always be pushed or occurs again deeper in the stack; stop at the first
slot that must be carried. -/
def compressTop : List StackSlot → List StackSlot
  | [] => []
  | x :: xs => if canAlwaysPush x = true ∨ x ∈ xs then compressTop xs else x :: xs

/-- Compression on a bottom-first stack. -/
def compressStack (s : Stack) : Stack :=
  (compressTop s.reverse).reverse

/-- The width clamp of propagateStackThroughOperation (lines 171-183): when
the stack is too wide, keep only the first occurrence of each slot that is
neither a literal nor a function call return label. -/
def clampWideStack (s : Stack) : Stack :=
  s.foldl (fun acc slot =>
    if (match slot with
        | StackSlot.litSlot _ => true
        | StackSlot.retLabel _ => true
        | _ => false) = true then acc
    else if slot ∈ acc then acc
    else acc ++ [slot]) []

/-- StackLayoutGenerator::propagateStackThroughOperation (lines 116-185):
from the operation's exit stack, build the ideal layout, junk the previous
values of assigned variables, append the operation's input slots (recording
the result as `operationEntryLayout`), then compress and clamp.  Returns
(recorded layout, propagated stack). -/
def propagateStackThroughOperation (exitStack : Stack) (op : Operation) :
    Stack × Stack :=
  let ideal := createIdealLayout exitStack op.output
  let junked := match op.operation with
    | .assignment vars => ideal.map (fun s =>
        match s with
        | StackSlot.varSlot v => if v ∈ vars then StackSlot.junk else s
        | _ => s)
    | _ => ideal
  let recorded := junked ++ op.input
  let compressed := compressStack recorded
  (recorded, if 12 < compressed.length then clampWideStack compressed else compressed)

/-- StackLayoutGenerator::propagateStackThroughBlock (lines 187-193): fold
the per-operation propagation over the block's operations in reverse order,
recording each operation's entry layout.  Returns the computed block entry
layout and the recorded operationEntryLayouts in source order. -/
def propagateStackThroughBlock (exitStack : Stack) (ops : List Operation) :
    Stack × List (Operation × Stack) :=
  ops.foldr (fun op acc =>
    let (recorded, next) := propagateStackThroughOperation acc.1 op
    (next, (op, recorded) :: acc.2)) (exitStack, [])

/-- Forward execution of a block under the recorded layouts, following the
claimed invariant: start from the entry layout; for each operation in
source order, shuffle the stack into the operation's recorded entry layout
(modelled as replacing the stack, since the shuffler can realize any target
layout), pop `|input|` slots, and push the output slots. -/
def execBlockForward (entry : Stack) (recs : List (Operation × Stack)) : Stack :=
  recs.foldl (fun _stack pr =>
    (pr.2.take (pr.2.length - pr.1.input.length)) ++ pr.1.output) entry

/-! ### Claim C1: block-level layout consistency -/

/-- The record list produced by the block propagation with a non-empty
initial record accumulator splits off the accumulator. -/
theorem propagateBlock_recs_init (E : Stack) (l : List Operation)
    (r0 : List (Operation × Stack)) :
    l.foldr (fun op acc =>
      let (recorded, next) := propagateStackThroughOperation acc.1 op
      (next, (op, recorded) :: acc.2)) (E, r0) =
    ((l.foldr (fun op acc =>
      let (recorded, next) := propagateStackThroughOperation acc.1 op
      (next, (op, recorded) :: acc.2)) (E, [])).1,
     (l.foldr (fun op acc =>
      let (recorded, next) := propagateStackThroughOperation acc.1 op
      (next, (op, recorded) :: acc.2)) (E, [])).2 ++ r0) := by
  induction l with
  | nil => rfl
  | cons op l ih =>
    simp only [List.foldr_cons, ih]
    rfl

/-- Splitting the block propagation at the last operation. -/
theorem propagateBlock_concat (E : Stack) (l : List Operation) (opL : Operation) :
    propagateStackThroughBlock E (l ++ [opL]) =
      ((propagateStackThroughBlock (propagateStackThroughOperation E opL).2 l).1,
       (propagateStackThroughBlock (propagateStackThroughOperation E opL).2 l).2 ++
         [(opL, (propagateStackThroughOperation E opL).1)]) := by
  unfold propagateStackThroughBlock
  rw [List.foldr_append]
  exact propagateBlock_recs_init _ _ _

/-- Forward execution is determined by the final recorded layout. -/
theorem execBlockForward_concat (e : Stack) (rs : List (Operation × Stack))
    (r : Operation × Stack) :
    execBlockForward e (rs ++ [r]) =
      (r.2.take (r.2.length - r.1.input.length)) ++ r.1.output := by
  unfold execBlockForward
  rw [List.foldl_append]
  rfl

/-- The recorded operation entry layout is the junkified ideal layout with
the operation's input slots appended. -/
theorem propagate_op_recorded_eq (E : Stack) (op : Operation) :
    (propagateStackThroughOperation E op).1 =
      (match op.operation with
       | .assignment vars => (createIdealLayout E op.output).map (fun s =>
           match s with
           | StackSlot.varSlot v => if v ∈ vars then StackSlot.junk else s
           | _ => s)
       | _ => createIdealLayout E op.output) ++ op.input := rfl

/-- Applying an operation forwards to its recorded entry layout recovers the
exit stack, when the exit stack carries the operation's outputs exactly on
top (no output slot and no assigned variable occurring below them). -/
theorem propagate_op_consistent (E : Stack) (op : Operation) (pre : Stack)
    (hE : E = pre ++ op.output)
    (hdisj : ∀ s ∈ pre, s ∉ op.output)
    (hjunk : ∀ vs, op.operation = .assignment vs →
      ∀ v ∈ vs, StackSlot.varSlot v ∉ pre) :
    ((propagateStackThroughOperation E op).1.take
      ((propagateStackThroughOperation E op).1.length - op.input.length)) ++
      op.output = E := by
  have hideal : createIdealLayout E op.output = pre := by
    unfold createIdealLayout
    rw [hE, List.filter_append]
    have h1 : pre.filter (fun s => decide (¬ s ∈ op.output)) = pre := by
      apply List.filter_eq_self.mpr
      intro s hs
      simpa using hdisj s hs
    have h2 : op.output.filter (fun s => decide (¬ s ∈ op.output)) = [] := by
      apply List.filter_eq_nil_iff.mpr
      intro s hs
      simpa using hs
    rw [h1, h2, List.append_nil]
  have hjunked : (match op.operation with
       | .assignment vars => (createIdealLayout E op.output).map (fun s =>
           match s with
           | StackSlot.varSlot v => if v ∈ vars then StackSlot.junk else s
           | _ => s)
       | _ => createIdealLayout E op.output) = pre := by
    rw [hideal]
    cases hop : op.operation with
    | assignment vars =>
      have hmap : ∀ s ∈ pre, (match s with
          | StackSlot.varSlot v => if v ∈ vars then StackSlot.junk else s
          | _ => s) = s := by
        intro s hs
        cases s with
        | varSlot v =>
          show (if v ∈ vars then StackSlot.junk else StackSlot.varSlot v) =
            StackSlot.varSlot v
          rw [if_neg]
          intro hv
          exact hjunk vars hop v hv hs
        | retLabel c => rfl
        | funRetLabel => rfl
        | litSlot x => rfl
        | tempSlot a b => rfl
        | junk => rfl
      calc pre.map (fun s => match s with
          | StackSlot.varSlot v => if v ∈ vars then StackSlot.junk else s
          | _ => s) = pre.map id := List.map_congr_left hmap
        _ = pre := List.map_id pre
    | builtinCall a => rfl
    | functionCall => rfl
  rw [propagate_op_recorded_eq, hjunked]
  have hlen : (pre ++ op.input).length - op.input.length = pre.length := by
    rw [List.length_append]
    omega
  rw [hlen, List.take_left, ← hE]

/-- C1 counterexample: for the single-operation block `x := tmp` with exit
layout `[x, c]` (the assigned variable is not on top of the exit layout),
starting at the computed entry layout, shuffling to the recorded operation
entry layout, popping the input and pushing the output yields `[c, x]`,
which differs from the exit layout — the claimed consistency fails. -/
theorem C1_counterexample :
    execBlockForward
      (propagateStackThroughBlock [StackSlot.varSlot 0, StackSlot.varSlot 1]
        [⟨[StackSlot.tempSlot 0 0], [StackSlot.varSlot 0],
          OperationKind.assignment [0]⟩]).1
      (propagateStackThroughBlock [StackSlot.varSlot 0, StackSlot.varSlot 1]
        [⟨[StackSlot.tempSlot 0 0], [StackSlot.varSlot 0],
          OperationKind.assignment [0]⟩]).2 ≠
      [StackSlot.varSlot 0, StackSlot.varSlot 1] := by
  decide

/-- C1 (amended): for every block processed by the layout generator whose
exit layout consists of a prefix followed exactly by the final operation's
output slots — with no output slot and no assigned variable of the final
operation occurring in the prefix — starting from the computed entry
layout and, for each operation in source order, shuffling to the recorded
operationEntryLayout, popping `|input|` slots and pushing the output slots,
the resulting stack equals the exit layout. -/
theorem C1_amended_blockConsistency (exitStack : Stack) (ops : List Operation)
    (h : ∀ opLast ∈ ops.getLast?, ∃ pre, exitStack = pre ++ opLast.output ∧
      (∀ s ∈ pre, s ∉ opLast.output) ∧
      (∀ vs, opLast.operation = .assignment vs →
        ∀ v ∈ vs, StackSlot.varSlot v ∉ pre)) :
    execBlockForward (propagateStackThroughBlock exitStack ops).1
      (propagateStackThroughBlock exitStack ops).2 = exitStack := by
  rcases List.eq_nil_or_concat ops with rfl | ⟨l, opL, rfl⟩
  · rfl
  · simp only [List.concat_eq_append] at h ⊢
    obtain ⟨pre, hE, hdisj, hjunk⟩ := h opL (by rw [List.getLast?_concat]; rfl)
    rw [propagateBlock_concat, execBlockForward_concat]
    exact propagate_op_consistent exitStack opL pre hE hdisj hjunk

/-- Witness for the amended C1 at a concrete block: exit layout `[c, x]`
with the assignment `x := tmp` as final operation. -/
theorem C1_amended_blockConsistency_witness :
    execBlockForward
      (propagateStackThroughBlock [StackSlot.varSlot 1, StackSlot.varSlot 0]
        [⟨[StackSlot.tempSlot 0 0], [StackSlot.varSlot 0],
          OperationKind.assignment [0]⟩]).1
      (propagateStackThroughBlock [StackSlot.varSlot 1, StackSlot.varSlot 0]
        [⟨[StackSlot.tempSlot 0 0], [StackSlot.varSlot 0],
          OperationKind.assignment [0]⟩]).2 =
      [StackSlot.varSlot 1, StackSlot.varSlot 0] := by
  apply C1_amended_blockConsistency
  intro opLast hm
  have hop : opLast = ⟨[StackSlot.tempSlot 0 0], [StackSlot.varSlot 0],
      OperationKind.assignment [0]⟩ := by
    have h2 : (⟨[StackSlot.tempSlot 0 0], [StackSlot.varSlot 0],
        OperationKind.assignment [0]⟩ : Operation) = opLast := by simpa using hm
    exact h2.symm
  subst hop
  refine ⟨[StackSlot.varSlot 1], rfl, by decide, ?_⟩
  intro vs hvs
  injection hvs with hv
  subst hv
  decide

/-! ### Claim C7: the compression step -/

/-- Characterization of the top-first compression loop: it drops exactly a
prefix of the top-first list, each dropped slot being regenerable or present
deeper, and it stops at the first slot that must be carried. -/
theorem compressTop_suffix (L : List StackSlot) :
    ∃ j, j ≤ L.length ∧ compressTop L = L.drop j ∧
      (∀ i, i < j → ∀ s, L[i]? = some s →
        (canAlwaysPush s = true ∨ s ∈ L.drop (i + 1))) ∧
      (∀ s, L[j]? = some s → ¬ (canAlwaysPush s = true ∨ s ∈ L.drop (j + 1))) := by
  induction L with
  | nil =>
    refine ⟨0, le_refl _, rfl, ?_, ?_⟩
    · intro i hi
      omega
    · intro s hs
      simp at hs
  | cons x xs ih =>
    by_cases hc : canAlwaysPush x = true ∨ x ∈ xs
    · obtain ⟨j, hj, hcomp, hpopped, hstop⟩ := ih
      refine ⟨j + 1, by simpa using hj, ?_, ?_, ?_⟩
      · rw [show compressTop (x :: xs) = compressTop xs from by
          show (if canAlwaysPush x = true ∨ x ∈ xs then compressTop xs else x :: xs) =
            compressTop xs
          rw [if_pos hc]]
        rw [List.drop_succ_cons]
        exact hcomp
      · intro i hi s hs
        cases i with
        | zero =>
          simp at hs
          subst hs
          simpa using hc
        | succ i =>
          rw [List.getElem?_cons_succ] at hs
          rw [show (i + 1 + 1) = (i + 1) + 1 from rfl, List.drop_succ_cons]
          exact hpopped i (by omega) s hs
      · intro s hs
        rw [List.getElem?_cons_succ] at hs
        rw [List.drop_succ_cons]
        exact hstop s hs
    · refine ⟨0, by omega, ?_, ?_, ?_⟩
      · rw [show compressTop (x :: xs) = x :: xs from by
          show (if canAlwaysPush x = true ∨ x ∈ xs then compressTop xs else x :: xs) =
            x :: xs
          rw [if_neg hc]]
        rfl
      · intro i hi
        omega
      · intro s hs
        simp at hs
        subst hs
        simpa using hc
/-- Every slot of the top-first list is regenerable or survives
compression. -/
theorem compressTop_mem (L : List StackSlot) :
    ∀ s ∈ L, canAlwaysPush s = true ∨ s ∈ compressTop L := by
  induction L with
  | nil =>
    intro s hs
    simp at hs
  | cons x xs ih =>
    intro s hs
    by_cases hc : canAlwaysPush x = true ∨ x ∈ xs
    · rw [show compressTop (x :: xs) = compressTop xs from by
        show (if canAlwaysPush x = true ∨ x ∈ xs then compressTop xs else x :: xs) =
          compressTop xs
        rw [if_pos hc]]
      rcases List.mem_cons.mp hs with rfl | hmem
      · rcases hc with h | h
        · exact Or.inl h
        · exact ih s h
      · exact ih s hmem
    · rw [show compressTop (x :: xs) = x :: xs from by
        show (if canAlwaysPush x = true ∨ x ∈ xs then compressTop xs else x :: xs) =
          x :: xs
        rw [if_neg hc]]
      exact Or.inr hs

/-- Characterization of compression on a bottom-first stack: the compressed
stack is a prefix, dropped slots are regenerable from it (pushable or still
present), and the loop stops at the first slot that must be carried. -/
theorem compressStack_spec (rec : Stack) :
    ∃ k, k ≤ rec.length ∧ compressStack rec = rec.take k ∧
      (∀ i s, k ≤ i → rec[i]? = some s →
        ((canAlwaysPush s = true ∨ s ∈ rec.take i) ∧
         (canAlwaysPush s = true ∨ s ∈ compressStack rec))) ∧
      (∀ s, 0 < k → rec[k - 1]? = some s →
        ¬ (canAlwaysPush s = true ∨ s ∈ rec.take (k - 1))) := by
  obtain ⟨j, hj, hcomp, hpopped, hstop⟩ := compressTop_suffix rec.reverse
  rw [List.length_reverse] at hj
  have hdropeq : ∀ m : Nat, m ≤ rec.length →
      (rec.reverse.drop m) = (rec.take (rec.length - m)).reverse := by
    intro m hm
    rw [List.reverse_take]
    congr 1
    omega
  refine ⟨rec.length - j, by omega, ?_, ?_, ?_⟩
  · unfold compressStack
    rw [hcomp, hdropeq j hj, List.reverse_reverse]
  · intro i s hki hs
    have hin : i < rec.length := by
      rcases List.getElem?_eq_some.mp hs with ⟨h, -⟩
      exact h
    have hrev : rec.reverse[rec.length - 1 - i]? = some s := by
      rw [List.getElem?_reverse (by omega)]
      have heq2 : rec.length - 1 - (rec.length - 1 - i) = i := by omega
      rw [heq2]
      exact hs
    have hidx : rec.length - 1 - i < j := by omega
    have hcond := hpopped _ hidx s hrev
    constructor
    · rcases hcond with h | h
      · exact Or.inl h
      · right
        rw [hdropeq _ (by omega), List.mem_reverse] at h
        have heq2 : rec.length - (rec.length - 1 - i + 1) = i := by omega
        rwa [heq2] at h
    · have hsmem : s ∈ rec.reverse := List.getElem?_mem hrev
      rcases compressTop_mem rec.reverse s hsmem with h | h
      · exact Or.inl h
      · right
        unfold compressStack
        rw [List.mem_reverse]
        exact h
  · intro s hk hs
    have hjlt : j < rec.length := by omega
    have hrev : rec.reverse[j]? = some s := by
      rw [List.getElem?_reverse (by omega)]
      have heq2 : rec.length - 1 - j = rec.length - j - 1 := by omega
      rw [heq2]
      exact hs
    have hcond := hstop s hrev
    intro hcontra
    apply hcond
    rcases hcontra with h | h
    · exact Or.inl h
    · right
      rw [hdropeq _ (by omega), List.mem_reverse]
      have heq2 : rec.length - (j + 1) = rec.length - j - 1 := by omega
      rwa [heq2]

/-- C7: in `propagateStackThroughOperation`, after the operation's entry
layout is recorded, the compression step pops slots from the top down
exactly while the top slot is a literal, junk, or function-call return label
or occurs again lower in the stack, stopping at the first slot that must be
carried; the compressed stack is a prefix (`take`) of the recorded
operationEntryLayout, every removed slot is regenerable from it (pushable,
or still occurring in the compressed stack), and whenever the compressed
stack is within the width bound of 12 it is exactly the returned stack. -/
theorem C7_compression (E : Stack) (op : Operation) :
    ∃ k, k ≤ (propagateStackThroughOperation E op).1.length ∧
      compressStack (propagateStackThroughOperation E op).1 =
        (propagateStackThroughOperation E op).1.take k ∧
      (∀ i s, k ≤ i → (propagateStackThroughOperation E op).1[i]? = some s →
        ((canAlwaysPush s = true ∨
            s ∈ (propagateStackThroughOperation E op).1.take i) ∧
         (canAlwaysPush s = true ∨
            s ∈ compressStack (propagateStackThroughOperation E op).1))) ∧
      (∀ s, 0 < k → (propagateStackThroughOperation E op).1[k - 1]? = some s →
        ¬ (canAlwaysPush s = true ∨
            s ∈ (propagateStackThroughOperation E op).1.take (k - 1))) ∧
      ((compressStack (propagateStackThroughOperation E op).1).length ≤ 12 →
        (propagateStackThroughOperation E op).2 =
          compressStack (propagateStackThroughOperation E op).1) := by
  obtain ⟨k, hk, hcomp, hpopped, hstop⟩ :=
    compressStack_spec (propagateStackThroughOperation E op).1
  refine ⟨k, hk, hcomp, hpopped, hstop, ?_⟩
  intro h12
  show (if 12 < (compressStack (propagateStackThroughOperation E op).1).length
      then clampWideStack (compressStack (propagateStackThroughOperation E op).1)
      else compressStack (propagateStackThroughOperation E op).1) =
    compressStack (propagateStackThroughOperation E op).1
  rw [if_neg (by omega)]

/-- Witness for C7 at a concrete operation and exit stack. -/
theorem C7_compression_witness :
    ∃ k, k ≤ (propagateStackThroughOperation [StackSlot.varSlot 3]
        ⟨[StackSlot.varSlot 1, StackSlot.litSlot 7], [StackSlot.varSlot 3],
          OperationKind.builtinCall 2⟩).1.length ∧
      compressStack (propagateStackThroughOperation [StackSlot.varSlot 3]
        ⟨[StackSlot.varSlot 1, StackSlot.litSlot 7], [StackSlot.varSlot 3],
          OperationKind.builtinCall 2⟩).1 =
        (propagateStackThroughOperation [StackSlot.varSlot 3]
        ⟨[StackSlot.varSlot 1, StackSlot.litSlot 7], [StackSlot.varSlot 3],
          OperationKind.builtinCall 2⟩).1.take k ∧
      (∀ i s, k ≤ i → (propagateStackThroughOperation [StackSlot.varSlot 3]
        ⟨[StackSlot.varSlot 1, StackSlot.litSlot 7], [StackSlot.varSlot 3],
          OperationKind.builtinCall 2⟩).1[i]? = some s →
        ((canAlwaysPush s = true ∨
            s ∈ (propagateStackThroughOperation [StackSlot.varSlot 3]
        ⟨[StackSlot.varSlot 1, StackSlot.litSlot 7], [StackSlot.varSlot 3],
          OperationKind.builtinCall 2⟩).1.take i) ∧
         (canAlwaysPush s = true ∨
            s ∈ compressStack (propagateStackThroughOperation [StackSlot.varSlot 3]
        ⟨[StackSlot.varSlot 1, StackSlot.litSlot 7], [StackSlot.varSlot 3],
          OperationKind.builtinCall 2⟩).1))) ∧
      (∀ s, 0 < k → (propagateStackThroughOperation [StackSlot.varSlot 3]
        ⟨[StackSlot.varSlot 1, StackSlot.litSlot 7], [StackSlot.varSlot 3],
          OperationKind.builtinCall 2⟩).1[k - 1]? = some s →
        ¬ (canAlwaysPush s = true ∨
            s ∈ (propagateStackThroughOperation [StackSlot.varSlot 3]
        ⟨[StackSlot.varSlot 1, StackSlot.litSlot 7], [StackSlot.varSlot 3],
          OperationKind.builtinCall 2⟩).1.take (k - 1))) ∧
      ((compressStack (propagateStackThroughOperation [StackSlot.varSlot 3]
        ⟨[StackSlot.varSlot 1, StackSlot.litSlot 7], [StackSlot.varSlot 3],
          OperationKind.builtinCall 2⟩).1).length ≤ 12 →
        (propagateStackThroughOperation [StackSlot.varSlot 3]
        ⟨[StackSlot.varSlot 1, StackSlot.litSlot 7], [StackSlot.varSlot 3],
          OperationKind.builtinCall 2⟩).2 =
          compressStack (propagateStackThroughOperation [StackSlot.varSlot 3]
        ⟨[StackSlot.varSlot 1, StackSlot.litSlot 7], [StackSlot.varSlot 3],
          OperationKind.builtinCall 2⟩).1) :=
  C7_compression [StackSlot.varSlot 3]
    ⟨[StackSlot.varSlot 1, StackSlot.litSlot 7], [StackSlot.varSlot 3],
      OperationKind.builtinCall 2⟩

/-! ### The control-flow graph of the DFG builder -/

/-- Block exits (DFG::BasicBlock, DataFlowGraph.h lines 111-125).  Blocks
are identified by their index in the graph's block container (the C++ uses
stable pointers into an append-only list). -/
inductive BlockExit where
  | mainExit
  | jump (target : Nat) (backwards : Bool)
  | condJump (condition : StackSlot) (nonZero : Nat) (zero : Nat)
  | functionReturn
  | terminated
  deriving DecidableEq, Repr

/-- DFG::BasicBlock — predecessor list, operations, and exit. -/
structure BasicBlock where
  entries : List Nat
  operations : List Operation
  exit : BlockExit
  deriving DecidableEq, Repr

/-- The graph: an append-only container of blocks. -/
structure DFG where
  blocks : List BasicBlock
  deriving DecidableEq, Repr

/-- The successors a block's exit contributes to the reachability traversal
of DataFlowGraphBuilder::build (lines 72-85): jumps follow their target
(backwards or not), conditional jumps follow zero then nonZero, other exits
have no successor. -/
def exitSuccessors : BlockExit → List Nat
  | .jump t _ => [t]
  | .condJump _ nz z => [z, nz]
  | _ => []

/-- Modelled from the spec: `util::BreadthFirstSearch` (libsolutil
Algorithms.h) is not among the sources under verification.  It is the
standard queue-based traversal the builder and the layout generator use:
repeatedly pop the front vertex, skip it when already visited, otherwise
visit it and append its children to the queue.  Returns the visit order;
the fuel bounds the number of processed queue entries. -/
def bfsOrder (children : Nat → List Nat) : Nat → List Nat → List Nat → List Nat
  | 0, _, _ => []
  | fuel + 1, queue, visited =>
    match queue with
    | [] => []
    | v :: rest =>
      if v ∈ visited then bfsOrder children fuel rest visited
      else v :: bfsOrder children fuel (rest ++ children v) (v :: visited)

/-- Children function for graph traversals following exit edges. -/
def exitChildren (g : DFG) (v : Nat) : List Nat :=
  match g.blocks[v]? with
  | some blk => exitSuccessors blk.exit
  | none => []

/-- The predecessor pruning of DataFlowGraphBuilder::build (lines 87-92):
for every block in the visited set `V`, remove the entries whose source is
not in `V`; blocks outside `V` are left untouched.  (The builder computes
`V` by a breadth-first search from the program entry and all function
entries, following exit edges.) -/
def pruneEntries (g : DFG) (V : List Nat) : DFG :=
  ⟨g.blocks.enum.map (fun p =>
    if p.1 ∈ V then
      { p.2 with entries := p.2.entries.filter (fun e => e ∈ V) }
    else p.2)⟩

/-- Reachability from the root set following exit edges (the set computed by
the builder's reachability check). -/
inductive Reaches (g : DFG) (roots : List Nat) : Nat → Prop where
  | root (r : Nat) : r ∈ roots → Reaches g roots r
  | step (b s : Nat) (blk : BasicBlock) : Reaches g roots b →
      g.blocks[b]? = some blk → s ∈ exitSuccessors blk.exit → Reaches g roots s

theorem pruneEntries_getElem (g : DFG) (V : List Nat) (i : Nat) :
    (pruneEntries g V).blocks[i]? = (g.blocks[i]?).map (fun blk =>
      if i ∈ V then { blk with entries := blk.entries.filter (fun e => e ∈ V) }
      else blk) := by
  unfold pruneEntries
  rw [List.getElem?_map, List.getElem?_enum]
  cases g.blocks[i]? <;> rfl

/-- Pruning never changes a block's exit. -/
theorem pruneEntries_exit (g : DFG) (V : List Nat) (i : Nat) (blk : BasicBlock)
    (h : (pruneEntries g V).blocks[i]? = some blk) :
    ∃ blk0, g.blocks[i]? = some blk0 ∧ blk.exit = blk0.exit := by
  rw [pruneEntries_getElem] at h
  cases hg : g.blocks[i]? with
  | none => rw [hg] at h; cases h
  | some blk0 =>
    rw [hg] at h
    simp only [Option.map_some', Option.some.injEq] at h
    refine ⟨blk0, rfl, ?_⟩
    rw [← h]
    split_ifs <;> rfl

/-- Reachability is invariant under pruning, since pruning only touches
entry lists and reachability follows exit edges. -/
theorem reaches_pruneEntries (g : DFG) (roots V : List Nat) (v : Nat) :
    Reaches (pruneEntries g V) roots v ↔ Reaches g roots v := by
  constructor
  · intro h
    induction h with
    | root r hr => exact .root r hr
    | step b s blk hb hblk hs ih =>
      obtain ⟨blk0, hblk0, hexit⟩ := pruneEntries_exit g V b blk hblk
      exact .step b s blk0 ih hblk0 (hexit ▸ hs)
  · intro h
    induction h with
    | root r hr => exact .root r hr
    | step b s blk hb hblk hs ih =>
      refine .step b s (if b ∈ V then
        { blk with entries := blk.entries.filter (fun e => e ∈ V) } else blk) ih ?_ ?_
      · rw [pruneEntries_getElem, hblk]
        rfl
      · split_ifs <;> exact hs
/-! ### Reachability soundness of the builder's breadth-first search -/

/-- Every vertex emitted by the breadth-first search over exit edges is
reachable from the root set, provided every queued vertex is. -/
theorem bfsOrder_sound (g : DFG) (roots : List Nat) :
    ∀ (fuel : Nat) (queue visited : List Nat),
      (∀ q ∈ queue, Reaches g roots q) →
      ∀ v ∈ bfsOrder (exitChildren g) fuel queue visited, Reaches g roots v := by
  intro fuel
  induction fuel with
  | zero =>
    intro queue visited hq v hv
    simp only [bfsOrder, List.not_mem_nil] at hv
  | succ n ih =>
    intro queue visited hq v hv
    cases queue with
    | nil => simp only [bfsOrder, List.not_mem_nil] at hv
    | cons w rest =>
      simp only [bfsOrder] at hv
      by_cases hw : w ∈ visited
      · rw [if_pos hw] at hv
        exact ih rest visited (fun q hq2 => hq q (List.mem_cons_of_mem w hq2)) v hv
      · rw [if_neg hw] at hv
        rcases List.mem_cons.mp hv with h | h
        · exact h ▸ hq w (List.mem_cons_self w rest)
        · refine ih (rest ++ exitChildren g w) (w :: visited) ?_ v h
          intro q hq2
          rcases List.mem_append.mp hq2 with h1 | h1
          · exact hq q (List.mem_cons_of_mem w h1)
          · have hw2 : Reaches g roots w := hq w (List.mem_cons_self w rest)
            unfold exitChildren at h1
            cases hblk : g.blocks[w]? with
            | none => rw [hblk] at h1; exact absurd h1 (List.not_mem_nil q)
            | some blk =>
              rw [hblk] at h1
              exact .step w q blk hw2 hblk h1

/-- C5: after `DataFlowGraphBuilder::build` prunes the entry lists (lines
87-92) using the visited set of its reachability check — a breadth-first
search over exit edges from the root set, i.e. the program entry together
with all function entries — every remaining entry of a visited block names
a block reachable from the root set, both in the original and in the
pruned graph. -/
theorem C5_pruned_entries_reachable (g : DFG) (roots : List Nat) (fuel b e : Nat)
    (blk : BasicBlock)
    (hb : b ∈ bfsOrder (exitChildren g) fuel roots [])
    (hblk : (pruneEntries g (bfsOrder (exitChildren g) fuel roots [])).blocks[b]? = some blk)
    (he : e ∈ blk.entries) :
    Reaches g roots e ∧
      Reaches (pruneEntries g (bfsOrder (exitChildren g) fuel roots [])) roots e := by
  rw [pruneEntries_getElem] at hblk
  cases hg : g.blocks[b]? with
  | none => rw [hg] at hblk; cases hblk
  | some blk0 =>
    rw [hg] at hblk
    simp only [Option.map_some', Option.some.injEq] at hblk
    rw [if_pos hb] at hblk
    rw [← hblk] at he
    have heV : e ∈ bfsOrder (exitChildren g) fuel roots [] := by
      have h2 := (List.mem_filter.mp he).2
      simpa using h2
    have her : Reaches g roots e :=
      bfsOrder_sound g roots fuel roots [] (fun q hq => .root q hq) e heV
    exact ⟨her, (reaches_pruneEntries g roots _ e).mpr her⟩

/-- A three-block graph for the pruning witness: block 0 jumps to block 1,
block 2 is unreachable from the root set yet also jumps to block 1, so
block 1's entry list contains both 0 and 2 before pruning. -/
def gC5 : DFG :=
  ⟨[⟨[], [], .jump 1 false⟩, ⟨[0, 2], [], .mainExit⟩, ⟨[], [], .jump 1 false⟩]⟩

/-- Witness for C5 at a concrete graph: the surviving entry 0 of the
reachable block 1 is itself reachable, in both graphs. -/
theorem C5_pruned_entries_reachable_witness :
    Reaches gC5 [0] 0 ∧
      Reaches (pruneEntries gC5 (bfsOrder (exitChildren gC5) 8 [0] [])) [0] 0 :=
  C5_pruned_entries_reachable gC5 [0] 8 1 0 ⟨[0], [], .mainExit⟩ (by decide)
    (by decide) (by decide)
/-! ### The builder's jump primitives and entry back-references -/

/-- Replace the block at index `i` by `f` applied to it; out-of-range
indices leave the graph unchanged (the C++ mutates through a reference to
an existing block). -/
def modifyBlock (g : DFG) (i : Nat) (f : BasicBlock → BasicBlock) : DFG :=
  match g.blocks[i]? with
  | some blk => ⟨g.blocks.set i (f blk)⟩
  | none => g

/-- Appending a back-reference to a target block's entry list
(`_target.entries.emplace_back(m_currentBlock)`). -/
def addEntry (g : DFG) (i : Nat) (x : Nat) : DFG :=
  modifyBlock g i (fun b => { b with entries := b.entries ++ [x] })

/-- DataFlowGraphBuilder's graph-shaping primitives (DataFlowGraph.cpp):
`makeBlock` (DataFlowGraph.h line 147) appends a fresh block whose exit
defaults to `MainExit`; `jump` (lines 287-293) sets the current block's
exit to `Jump{target, backwards}` and appends the current block to the
target's entry list; `makeConditionalJump` (lines 275-286) sets the exit
to `ConditionalJump{condition, nonZero, zero}` and appends the current
block to the entry lists of `nonZero` and then `zero`. -/
inductive BuilderStep where
  | makeBlock
  | jumpStep (cur target : Nat) (backwards : Bool)
  | condJumpStep (cur : Nat) (condition : StackSlot) (nonZero zero : Nat)
  deriving Repr

def applyBuilderStep (g : DFG) : BuilderStep → DFG
  | .makeBlock => ⟨g.blocks ++ [⟨[], [], .mainExit⟩]⟩
  | .jumpStep cur t bw =>
      addEntry (modifyBlock g cur (fun b => { b with exit := .jump t bw })) t cur
  | .condJumpStep cur cond nz z =>
      addEntry (addEntry
        (modifyBlock g cur (fun b => { b with exit := .condJump cond nz z })) nz cur) z cur

/-- The builder only jumps through references to blocks of the graph. -/
def validStep (g : DFG) : BuilderStep → Bool
  | .makeBlock => true
  | .jumpStep cur t _ =>
      decide (cur < g.blocks.length) && decide (t < g.blocks.length)
  | .condJumpStep cur _ nz z =>
      decide (cur < g.blocks.length) && decide (nz < g.blocks.length) &&
        decide (z < g.blocks.length)

def validSteps (g : DFG) : List BuilderStep → Bool
  | [] => true
  | st :: rest => validStep g st && validSteps (applyBuilderStep g st) rest

/-- The graph assembled from a step sequence, starting from the empty
graph. -/
def buildGraph (steps : List BuilderStep) : DFG :=
  steps.foldl applyBuilderStep ⟨[]⟩

/-- Exit edges and entry lists agree: whenever a block's exit names a
successor, the successor's entry list records the block. -/
def edgeConsistent (g : DFG) : Prop :=
  ∀ (b : Nat) (blk : BasicBlock), g.blocks[b]? = some blk →
    ∀ s ∈ exitSuccessors blk.exit,
      ∃ sblk, g.blocks[s]? = some sblk ∧ b ∈ sblk.entries

theorem lt_length_of_getElem?_eq_some {α : Type} {l : List α} {j : Nat} {a : α}
    (h : l[j]? = some a) : j < l.length := by
  by_contra hc
  rw [List.getElem?_eq_none (Nat.le_of_not_lt hc)] at h
  cases h

theorem modifyBlock_getElem (g : DFG) (i : Nat) (f : BasicBlock → BasicBlock) (j : Nat) :
    (modifyBlock g i f).blocks[j]? =
      if j = i then (g.blocks[j]?).map f else g.blocks[j]? := by
  unfold modifyBlock
  cases hi : g.blocks[i]? with
  | none =>
    by_cases hj : j = i
    · subst hj; rw [if_pos rfl, hi]; rfl
    · rw [if_neg hj]
  | some blk =>
    show (g.blocks.set i (f blk))[j]? = _
    rw [List.getElem?_set]
    by_cases hj : j = i
    · subst hj
      rw [if_pos rfl, if_pos rfl, if_pos (lt_length_of_getElem?_eq_some hi), hi]
      rfl
    · rw [if_neg (fun h => hj h.symm), if_neg hj]

/-- `addEntry` does not change any block's exit. -/
theorem addEntry_exit (g : DFG) (i x j : Nat) :
    ((addEntry g i x).blocks[j]?).map BasicBlock.exit =
      (g.blocks[j]?).map BasicBlock.exit := by
  unfold addEntry
  rw [modifyBlock_getElem]
  by_cases hj : j = i
  · rw [if_pos hj]; cases g.blocks[j]? <;> rfl
  · rw [if_neg hj]

/-- `addEntry` at an existing index records the back-reference. -/
theorem addEntry_mem (g : DFG) (i x : Nat) (hi : i < g.blocks.length) :
    ∃ blk, (addEntry g i x).blocks[i]? = some blk ∧ x ∈ blk.entries := by
  have hg : g.blocks[i]? = some (g.blocks.get ⟨i, hi⟩) := List.getElem?_eq_getElem hi
  refine ⟨{ g.blocks.get ⟨i, hi⟩ with
      entries := (g.blocks.get ⟨i, hi⟩).entries ++ [x] }, ?_, ?_⟩
  · unfold addEntry
    rw [modifyBlock_getElem, if_pos rfl, hg]
    rfl
  · exact List.mem_append_right _ (List.mem_singleton.mpr rfl)

/-- `addEntry` preserves entry-list membership of every block. -/
theorem addEntry_mem_preserved (g : DFG) (i x j b : Nat) (sblk : BasicBlock)
    (h : g.blocks[j]? = some sblk) (hb : b ∈ sblk.entries) :
    ∃ sblk', (addEntry g i x).blocks[j]? = some sblk' ∧ b ∈ sblk'.entries := by
  unfold addEntry
  rw [modifyBlock_getElem]
  by_cases hj : j = i
  · rw [if_pos hj, h]
    exact ⟨_, rfl, List.mem_append_left _ hb⟩
  · rw [if_neg hj]
    exact ⟨sblk, h, hb⟩

/-- Setting a block's exit preserves entry-list membership of every
block. -/
theorem setExit_mem_preserved (g : DFG) (i : Nat) (e : BlockExit) (j b : Nat)
    (sblk : BasicBlock) (h : g.blocks[j]? = some sblk) (hb : b ∈ sblk.entries) :
    ∃ sblk', (modifyBlock g i (fun blk => { blk with exit := e })).blocks[j]? =
      some sblk' ∧ b ∈ sblk'.entries := by
  rw [modifyBlock_getElem]
  by_cases hj : j = i
  · rw [if_pos hj, h]
    exact ⟨_, rfl, hb⟩
  · rw [if_neg hj]
    exact ⟨sblk, h, hb⟩

/-- `addEntry` preserves the number of blocks. -/
theorem addEntry_length (g : DFG) (i x : Nat) :
    (addEntry g i x).blocks.length = g.blocks.length := by
  unfold addEntry modifyBlock
  cases g.blocks[i]? with
  | none => rfl
  | some blk => exact List.length_set _ _ _

/-- Setting a block's exit preserves the number of blocks. -/
theorem setExit_length (g : DFG) (i : Nat) (e : BlockExit) :
    (modifyBlock g i (fun blk => { blk with exit := e })).blocks.length =
      g.blocks.length := by
  unfold modifyBlock
  cases g.blocks[i]? with
  | none => rfl
  | some blk => exact List.length_set _ _ _

/-- Each builder primitive preserves the agreement of exit edges and entry
lists: the jump primitives record the back-reference in the same step that
sets the exit, and never remove recorded entries. -/
theorem edgeConsistent_applyStep (g : DFG) (st : BuilderStep)
    (hg : edgeConsistent g) (hv : validStep g st = true) :
    edgeConsistent (applyBuilderStep g st) := by
  cases st with
  | makeBlock =>
    intro b blk hb s hs
    have hb' : (g.blocks ++ [⟨[], [], .mainExit⟩])[b]? = some blk := hb
    rw [List.getElem?_append] at hb'
    by_cases hlt : b < g.blocks.length
    · rw [if_pos hlt] at hb'
      obtain ⟨sblk, hsblk, hmem⟩ := hg b blk hb' s hs
      refine ⟨sblk, ?_, hmem⟩
      show (g.blocks ++ [⟨[], [], .mainExit⟩])[s]? = some sblk
      rw [List.getElem?_append, if_pos (lt_length_of_getElem?_eq_some hsblk)]
      exact hsblk
    · rw [if_neg hlt] at hb'
      have hblk : blk = ⟨[], [], .mainExit⟩ := by
        cases hd : b - g.blocks.length with
        | zero => rw [hd] at hb'; exact (Option.some.inj hb').symm
        | succ m => rw [hd] at hb'; cases hb'
      rw [hblk] at hs
      exact absurd hs (List.not_mem_nil s)
  | jumpStep cur t bw =>
    simp only [validStep, Bool.and_eq_true, decide_eq_true_eq] at hv
    obtain ⟨hcur, ht⟩ := hv
    intro b blk hb s hs
    have hb' : (addEntry (modifyBlock g cur
        (fun bb => { bb with exit := .jump t bw })) t cur).blocks[b]? = some blk := hb
    by_cases hbc : b = cur
    · have hexit : blk.exit = .jump t bw := by
        have h1 := addEntry_exit (modifyBlock g cur
          (fun bb => { bb with exit := .jump t bw })) t cur b
        rw [hb', modifyBlock_getElem, hbc, if_pos rfl,
          List.getElem?_eq_getElem hcur] at h1
        exact Option.some.inj h1
      rw [hexit] at hs
      have hst : s = t := by
        rcases List.mem_cons.mp hs with h | h
        · exact h
        · exact absurd h (List.not_mem_nil s)
      subst hst
      have hslen : s < (modifyBlock g cur
          (fun bb => { bb with exit := BlockExit.jump s bw })).blocks.length := by
        rw [setExit_length]; exact ht
      obtain ⟨sblk, hsblk, hmem⟩ := addEntry_mem _ s cur hslen
      exact ⟨sblk, hsblk, hbc ▸ hmem⟩
    · have hexit : ∃ blk0, g.blocks[b]? = some blk0 ∧ blk0.exit = blk.exit := by
        have h1 := addEntry_exit (modifyBlock g cur
          (fun bb => { bb with exit := .jump t bw })) t cur b
        rw [hb', modifyBlock_getElem, if_neg hbc] at h1
        obtain ⟨blk0, hblk0, hfx⟩ := Option.map_eq_some'.mp h1.symm
        exact ⟨blk0, hblk0, hfx⟩
      obtain ⟨blk0, hblk0, hexit0⟩ := hexit
      obtain ⟨sblk, hsblk, hmem⟩ := hg b blk0 hblk0 s (hexit0 ▸ hs)
      obtain ⟨sblk1, hsblk1, hmem1⟩ :=
        setExit_mem_preserved g cur (.jump t bw) s b sblk hsblk hmem
      exact addEntry_mem_preserved _ t cur s b sblk1 hsblk1 hmem1
  | condJumpStep cur cond nz z =>
    simp only [validStep, Bool.and_eq_true, decide_eq_true_eq] at hv
    obtain ⟨⟨hcur, hnz⟩, hz⟩ := hv
    intro b blk hb s hs
    have hb' : (addEntry (addEntry (modifyBlock g cur
        (fun bb => { bb with exit := .condJump cond nz z })) nz cur) z cur).blocks[b]?
        = some blk := hb
    by_cases hbc : b = cur
    · have hexit : blk.exit = .condJump cond nz z := by
        have h1 := addEntry_exit (addEntry (modifyBlock g cur
          (fun bb => { bb with exit := .condJump cond nz z })) nz cur) z cur b
        have h2 := addEntry_exit (modifyBlock g cur
          (fun bb => { bb with exit := .condJump cond nz z })) nz cur b
        rw [hb', h2, modifyBlock_getElem, hbc, if_pos rfl,
          List.getElem?_eq_getElem hcur] at h1
        exact Option.some.inj h1
      rw [hexit] at hs
      have hnzlen : nz < (modifyBlock g cur
          (fun bb => { bb with exit := BlockExit.condJump cond nz z })).blocks.length := by
        rw [setExit_length]; exact hnz
      rcases List.mem_cons.mp hs with h | h
      · subst s
        have hslen : z < (addEntry (modifyBlock g cur
            (fun bb => { bb with exit := BlockExit.condJump cond nz z })) nz cur).blocks.length := by
          rw [addEntry_length, setExit_length]; exact hz
        obtain ⟨sblk, hsblk, hmem⟩ := addEntry_mem _ z cur hslen
        exact ⟨sblk, hsblk, hbc ▸ hmem⟩
      · have hsnz : s = nz := by
          rcases List.mem_cons.mp h with h2 | h2
          · exact h2
          · exact absurd h2 (List.not_mem_nil s)
        subst s
        obtain ⟨blk1, hblk1, hmem1⟩ := addEntry_mem (modifyBlock g cur
          (fun bb => { bb with exit := .condJump cond nz z })) nz cur hnzlen
        obtain ⟨sblk2, hsblk2, hmem2⟩ :=
          addEntry_mem_preserved _ z cur nz cur blk1 hblk1 hmem1
        exact ⟨sblk2, hsblk2, hbc ▸ hmem2⟩
    · have hexit : ∃ blk0, g.blocks[b]? = some blk0 ∧ blk0.exit = blk.exit := by
        have h1 := addEntry_exit (addEntry (modifyBlock g cur
          (fun bb => { bb with exit := .condJump cond nz z })) nz cur) z cur b
        have h2 := addEntry_exit (modifyBlock g cur
          (fun bb => { bb with exit := .condJump cond nz z })) nz cur b
        rw [hb', h2, modifyBlock_getElem, if_neg hbc] at h1
        obtain ⟨blk0, hblk0, hfx⟩ := Option.map_eq_some'.mp h1.symm
        exact ⟨blk0, hblk0, hfx⟩
      obtain ⟨blk0, hblk0, hexit0⟩ := hexit
      obtain ⟨sblk, hsblk, hmem⟩ := hg b blk0 hblk0 s (hexit0 ▸ hs)
      obtain ⟨sblk1, hsblk1, hmem1⟩ :=
        setExit_mem_preserved g cur (.condJump cond nz z) s b sblk hsblk hmem
      obtain ⟨sblk2, hsblk2, hmem2⟩ :=
        addEntry_mem_preserved _ nz cur s b sblk1 hsblk1 hmem1
      exact addEntry_mem_preserved _ z cur s b sblk2 hsblk2 hmem2

theorem edgeConsistent_empty : edgeConsistent ⟨[]⟩ := by
  intro b blk hb
  rw [List.getElem?_eq_none (Nat.zero_le b)] at hb
  cases hb

theorem edgeConsistent_foldl (steps : List BuilderStep) :
    ∀ (g : DFG), edgeConsistent g → validSteps g steps = true →
      edgeConsistent (steps.foldl applyBuilderStep g) := by
  induction steps with
  | nil => intro g hg _; exact hg
  | cons st rest ih =>
    intro g hg hv
    simp only [validSteps, Bool.and_eq_true] at hv
    rw [List.foldl_cons]
    exact ih (applyBuilderStep g st) (edgeConsistent_applyStep g st hg hv.1) hv.2

/-- C9: in a graph assembled by the builder's primitives, exit edges and
entry lists agree for every visited block after pruning: whenever a
visited block's exit names a successor, the successor's pruned entry list
still records the block.  The visited set is assumed closed under exit
edges, as the completed reachability search of
`DataFlowGraphBuilder::build` guarantees; the back-reference is inserted
by the same primitive that sets the exit, and pruning only removes entries
whose source block is unvisited. -/
theorem C9_exit_entries_agree (steps : List BuilderStep) (V : List Nat)
    (b s : Nat) (blk : BasicBlock)
    (hvalid : validSteps ⟨[]⟩ steps = true)
    (hVclosed : ∀ u ∈ V, ∀ w ∈ exitChildren (buildGraph steps) u, w ∈ V)
    (hb : b ∈ V)
    (hblk : (buildGraph steps).blocks[b]? = some blk)
    (hs : s ∈ exitSuccessors blk.exit) :
    ∃ sblk, (pruneEntries (buildGraph steps) V).blocks[s]? = some sblk ∧
      b ∈ sblk.entries := by
  have hec : edgeConsistent (buildGraph steps) :=
    edgeConsistent_foldl steps ⟨[]⟩ edgeConsistent_empty hvalid
  obtain ⟨sblk0, hs0, hbmem⟩ := hec b blk hblk s hs
  have hsV : s ∈ V := hVclosed b hb s (by unfold exitChildren; rw [hblk]; exact hs)
  refine ⟨{ sblk0 with entries := sblk0.entries.filter (fun e => e ∈ V) }, ?_, ?_⟩
  · rw [pruneEntries_getElem, hs0]
    simp only [Option.map_some']
    rw [if_pos hsV]
  · simp only [List.mem_filter, decide_eq_true_eq]
    exact ⟨hbmem, hb⟩

/-- Witness for C9: in the graph built by two `makeBlock`s and a jump from
block 0 to block 1, the pruned entry list of block 1 records block 0. -/
theorem C9_exit_entries_agree_witness :
    ∃ sblk,
      (pruneEntries (buildGraph [.makeBlock, .makeBlock, .jumpStep 0 1 false])
        [0, 1]).blocks[1]? = some sblk ∧ 0 ∈ sblk.entries :=
  C9_exit_entries_agree [.makeBlock, .makeBlock, .jumpStep 0 1 false] [0, 1]
    0 1 ⟨[], [], .jump 1 false⟩ (by decide) (by decide) (by decide) (by decide)
    (by decide)
/-! ### Stitching conditional jumps (StackLayoutGenerator.cpp lines 388-429) -/

/-- Entry and exit layouts recorded per block (`StackLayout::BlockInfo`). -/
structure BlockInfo where
  entryLayout : Stack
  exitLayout : Stack
  deriving DecidableEq, Repr

/-- The exit of the block at index `v`; indices outside the graph report
`MainExit` (the traversal only ever visits existing blocks). -/
def exitOf (g : DFG) (v : Nat) : BlockExit :=
  match g.blocks[v]? with
  | some blk => blk.exit
  | none => .mainExit

/-- The two branch targets of a conditional-jump exit. -/
def condSuccs : BlockExit → List Nat
  | .condJump _ nz z => [nz, z]
  | _ => []

/-- The junk substitution of `stitchConditionalJumps`: each slot of the
truncated exit layout is kept when it occurs in the target's current entry
layout and replaced by `JunkSlot` otherwise. -/
def junkSub (E target : Stack) : Stack :=
  E.map (fun slot => if slot ∈ target then slot else StackSlot.junk)

/-- Overwrite the entry layout of block `i` with the junk substitution of
`E` against its current entry layout. -/
def stitchUpd (E : Stack) (layout : Nat → BlockInfo) (i : Nat) : Nat → BlockInfo :=
  fun j =>
    if j = i then { layout i with entryLayout := junkSub E (layout i).entryLayout }
    else layout j

/-- Processing one block of the stitching traversal: for a conditional
jump, the block's exit layout minus its top (the consumed condition; the
source asserts non-emptiness) is junk-substituted into the entry layout of
the `zero` target first and then of the `nonZero` target — through
references, so a shared target sees the first update.  Other exits leave
the layouts unchanged. -/
def stitchOne (g : DFG) (layout : Nat → BlockInfo) (b : Nat) : Nat → BlockInfo :=
  match exitOf g b with
  | .condJump _ nz z =>
      stitchUpd ((layout b).exitLayout.dropLast)
        (stitchUpd ((layout b).exitLayout.dropLast) layout z) nz
  | _ => layout

/-- The children followed by the stitching traversal: non-backwards jump
targets, and for conditional jumps the `zero` then the `nonZero` target. -/
def stitchChildren (g : DFG) (v : Nat) : List Nat :=
  match exitOf g v with
  | .jump t bw => if bw then [] else [t]
  | .condJump _ nz z => [z, nz]
  | _ => []

/-- The visit order of the stitching traversal from `entry`. -/
def stitchOrder (g : DFG) (entry fuel : Nat) : List Nat :=
  bfsOrder (stitchChildren g) fuel [entry] []

/-- `StackLayoutGenerator::stitchConditionalJumps`: fold the per-block
update over the traversal order. -/
def stitchConditionalJumps (g : DFG) (entry fuel : Nat)
    (layout : Nat → BlockInfo) : Nat → BlockInfo :=
  (stitchOrder g entry fuel).foldl (stitchOne g) layout

/-- `a` agrees with `E` positionally except where `a` holds junk. -/
def isJunkSubOf (a E : Stack) : Prop :=
  a.length = E.length ∧ ∀ (i : Nat), a[i]? = E[i]? ∨ a[i]? = some StackSlot.junk

/-- Stacks equal up to `JunkSlot` substitution on either side. -/
def stacksEqualUpToJunk (a b : Stack) : Prop :=
  a.length = b.length ∧
    ∀ (i : Nat), a[i]? = b[i]? ∨ a[i]? = some StackSlot.junk ∨
      b[i]? = some StackSlot.junk

theorem junkSub_isJunkSubOf (E t : Stack) : isJunkSubOf (junkSub E t) E := by
  constructor
  · exact List.length_map E _
  · intro i
    unfold junkSub
    rw [List.getElem?_map]
    cases hE : E[i]? with
    | none => left; rfl
    | some s =>
      by_cases hs : s ∈ t
      · left; simp [hs]
      · right; simp [hs]

theorem isJunkSubOf_equalUpToJunk (a E : Stack) (h : isJunkSubOf a E) :
    stacksEqualUpToJunk a E := by
  exact ⟨h.1, fun i => (h.2 i).elim Or.inl (fun h2 => Or.inr (Or.inl h2))⟩

theorem isJunkSubOf_pair_equalUpToJunk (a b E : Stack) (ha : isJunkSubOf a E)
    (hb : isJunkSubOf b E) : stacksEqualUpToJunk a b := by
  refine ⟨ha.1.trans hb.1.symm, fun i => ?_⟩
  rcases ha.2 i with h1 | h1
  · rcases hb.2 i with h2 | h2
    · exact Or.inl (h1.trans h2.symm)
    · exact Or.inr (Or.inr h2)
  · exact Or.inr (Or.inl h1)

theorem stitchUpd_exit (E : Stack) (L : Nat → BlockInfo) (i j : Nat) :
    ((stitchUpd E L i) j).exitLayout = (L j).exitLayout := by
  unfold stitchUpd
  split_ifs with h
  · rw [h]
  · rfl

theorem stitchUpd_other (E : Stack) (L : Nat → BlockInfo) (i j : Nat)
    (h : j ≠ i) : (stitchUpd E L i) j = L j := by
  unfold stitchUpd
  rw [if_neg h]

theorem stitchUpd_self (E : Stack) (L : Nat → BlockInfo) (i : Nat) :
    ((stitchUpd E L i) i).entryLayout = junkSub E (L i).entryLayout := by
  unfold stitchUpd
  rw [if_pos rfl]

theorem stitchOne_eq_cond (g : DFG) (L : Nat → BlockInfo) (b : Nat)
    (cond : StackSlot) (nz z : Nat) (h : exitOf g b = .condJump cond nz z) :
    stitchOne g L b =
      stitchUpd ((L b).exitLayout.dropLast)
        (stitchUpd ((L b).exitLayout.dropLast) L z) nz := by
  unfold stitchOne
  rw [h]

theorem stitchOne_exit (g : DFG) (L : Nat → BlockInfo) (b i : Nat) :
    ((stitchOne g L b) i).exitLayout = (L i).exitLayout := by
  unfold stitchOne
  cases hexit : exitOf g b with
  | condJump c nz z => rw [stitchUpd_exit, stitchUpd_exit]
  | mainExit => rfl
  | jump t bw => rfl
  | functionReturn => rfl
  | terminated => rfl

theorem stitchOne_not_touched (g : DFG) (L : Nat → BlockInfo) (b i : Nat)
    (hi : i ∉ condSuccs (exitOf g b)) : (stitchOne g L b) i = L i := by
  unfold stitchOne
  cases hexit : exitOf g b with
  | condJump c nz z =>
    rw [hexit] at hi
    simp only [condSuccs, List.mem_cons, List.not_mem_nil, or_false,
      not_or] at hi
    show (stitchUpd ((L b).exitLayout.dropLast)
        (stitchUpd ((L b).exitLayout.dropLast) L z) nz) i = L i
    rw [stitchUpd_other _ _ _ _ hi.1, stitchUpd_other _ _ _ _ hi.2]
  | mainExit => rfl
  | jump t bw => rfl
  | functionReturn => rfl
  | terminated => rfl

/-- Processing a conditional-jump block makes the entry layouts of both
branch targets junk substitutions of the block's truncated exit layout. -/
theorem stitchOne_cond_just (g : DFG) (L : Nat → BlockInfo) (b : Nat)
    (cond : StackSlot) (nz z : Nat) (h : exitOf g b = .condJump cond nz z) :
    isJunkSubOf ((stitchOne g L b nz).entryLayout) ((L b).exitLayout.dropLast) ∧
      isJunkSubOf ((stitchOne g L b z).entryLayout) ((L b).exitLayout.dropLast) := by
  rw [stitchOne_eq_cond g L b cond nz z h]
  constructor
  · rw [stitchUpd_self]
    exact junkSub_isJunkSubOf _ _
  · by_cases hz : z = nz
    · rw [hz, stitchUpd_self]
      exact junkSub_isJunkSubOf _ _
    · rw [stitchUpd_other _ _ _ _ hz, stitchUpd_self]
      exact junkSub_isJunkSubOf _ _

theorem foldl_stitch_exit (g : DFG) :
    ∀ (l : List Nat) (L : Nat → BlockInfo) (i : Nat),
      ((l.foldl (stitchOne g) L) i).exitLayout = (L i).exitLayout := by
  intro l
  induction l with
  | nil => intro L i; rfl
  | cons x rest ih =>
    intro L i
    rw [List.foldl_cons, ih, stitchOne_exit]

/-- Once both branch targets of the conditional-jump block `b` hold junk
substitutions of its truncated exit layout, further processing keeps that:
a later occurrence of `b` itself re-establishes it, and every other block
in the list is assumed not to target them. -/
theorem foldl_stitch_keeps (g : DFG) (b : Nat) (cond : StackSlot) (nz z : Nat)
    (E0 : Stack) (hexit : exitOf g b = .condJump cond nz z) :
    ∀ (l : List Nat) (L : Nat → BlockInfo),
      (∀ b' ∈ l, b' = b ∨
        (nz ∉ condSuccs (exitOf g b') ∧ z ∉ condSuccs (exitOf g b'))) →
      (L b).exitLayout = E0 →
      isJunkSubOf ((L nz).entryLayout) E0.dropLast →
      isJunkSubOf ((L z).entryLayout) E0.dropLast →
      isJunkSubOf (((l.foldl (stitchOne g) L) nz).entryLayout) E0.dropLast ∧
        isJunkSubOf (((l.foldl (stitchOne g) L) z).entryLayout) E0.dropLast := by
  intro l
  induction l with
  | nil => intro L hl hb hnz hz; exact ⟨hnz, hz⟩
  | cons x rest ih =>
    intro L hl hb hnz hz
    rw [List.foldl_cons]
    have hbexit : ((stitchOne g L x) b).exitLayout = E0 := by
      rw [stitchOne_exit]; exact hb
    rcases hl x (List.mem_cons_self x rest) with hx | hx
    · subst x
      have hjust := stitchOne_cond_just g L b cond nz z hexit
      rw [hb] at hjust
      exact ih (stitchOne g L b) (fun b' hb' => hl b' (List.mem_cons_of_mem b hb'))
        hbexit hjust.1 hjust.2
    · refine ih (stitchOne g L x) (fun b' hb' => hl b' (List.mem_cons_of_mem x hb'))
        hbexit ?_ ?_
      · rw [stitchOne_not_touched g L x nz hx.1]; exact hnz
      · rw [stitchOne_not_touched g L x z hx.2]; exact hz

/-- C3: after `stitchConditionalJumps`, for every visited block `b` whose
exit is `ConditionalJump(cond, nonZero, zero)`, the entry layouts of
`nonZero` and of `zero` each equal the block's exit layout with the top
slot (the consumed condition) removed, up to `JunkSlot` substitution, and
hence equal each other up to `JunkSlot` substitution.  The branch targets
of distinct visited conditional jumps are assumed disjoint, as holds for
the graphs the builder produces (every conditional jump receives its own
pair of branch targets). -/
theorem C3_stitched_cond_jump_layouts (g : DFG) (entry fuel : Nat)
    (layout0 : Nat → BlockInfo) (b : Nat) (cond : StackSlot) (nz z : Nat)
    (hb : b ∈ stitchOrder g entry fuel)
    (hexit : exitOf g b = .condJump cond nz z)
    (hdisj : ∀ b' ∈ stitchOrder g entry fuel, b' ≠ b →
      nz ∉ condSuccs (exitOf g b') ∧ z ∉ condSuccs (exitOf g b')) :
    stacksEqualUpToJunk
        ((stitchConditionalJumps g entry fuel layout0 nz).entryLayout)
        (((stitchConditionalJumps g entry fuel layout0 b).exitLayout).dropLast) ∧
      stacksEqualUpToJunk
        ((stitchConditionalJumps g entry fuel layout0 z).entryLayout)
        (((stitchConditionalJumps g entry fuel layout0 b).exitLayout).dropLast) ∧
      stacksEqualUpToJunk
        ((stitchConditionalJumps g entry fuel layout0 nz).entryLayout)
        ((stitchConditionalJumps g entry fuel layout0 z).entryLayout) := by
  obtain ⟨pre, post, hsplit⟩ := List.append_of_mem hb
  have hfold : stitchConditionalJumps g entry fuel layout0 =
      post.foldl (stitchOne g)
        (stitchOne g (pre.foldl (stitchOne g) layout0) b) := by
    unfold stitchConditionalJumps
    rw [hsplit, List.foldl_append, List.foldl_cons]
  have hE1 : ((pre.foldl (stitchOne g) layout0) b).exitLayout =
      (layout0 b).exitLayout := foldl_stitch_exit g pre layout0 b
  have hjust := stitchOne_cond_just g (pre.foldl (stitchOne g) layout0) b
    cond nz z hexit
  rw [hE1] at hjust
  have hb2 : ((stitchOne g (pre.foldl (stitchOne g) layout0) b) b).exitLayout =
      (layout0 b).exitLayout := by
    rw [stitchOne_exit]; exact hE1
  have hpost : ∀ b' ∈ post, b' = b ∨
      (nz ∉ condSuccs (exitOf g b') ∧ z ∉ condSuccs (exitOf g b')) := by
    intro b' hb'
    by_cases hbb : b' = b
    · exact Or.inl hbb
    · refine Or.inr (hdisj b' ?_ hbb)
      rw [hsplit]
      exact List.mem_append_right pre (List.mem_cons_of_mem b hb')
  have hkeep := foldl_stitch_keeps g b cond nz z (layout0 b).exitLayout hexit
    post (stitchOne g (pre.foldl (stitchOne g) layout0) b) hpost hb2
    hjust.1 hjust.2
  have hbfin : (stitchConditionalJumps g entry fuel layout0 b).exitLayout =
      (layout0 b).exitLayout := by
    rw [hfold, foldl_stitch_exit, stitchOne_exit]
    exact hE1
  rw [← hfold] at hkeep
  rw [hbfin]
  exact ⟨isJunkSubOf_equalUpToJunk _ _ hkeep.1,
    isJunkSubOf_equalUpToJunk _ _ hkeep.2,
    isJunkSubOf_pair_equalUpToJunk _ _ _ hkeep.1 hkeep.2⟩

/-- The stitching witness graph: block 0 conditionally jumps to blocks 1
(non-zero) and 2 (zero). -/
def gC3 : DFG :=
  ⟨[⟨[], [], .condJump (.varSlot 9) 1 2⟩, ⟨[], [], .mainExit⟩,
    ⟨[], [], .mainExit⟩]⟩

/-- Initial layouts for the stitching witness. -/
def layoutC3 : Nat → BlockInfo := fun i =>
  if i = 0 then ⟨[], [.varSlot 0, .varSlot 1, .varSlot 9]⟩
  else if i = 1 then ⟨[.varSlot 0], []⟩
  else ⟨[.varSlot 1, .varSlot 5], []⟩

/-- Witness for C3 at a concrete graph and layout assignment. -/
theorem C3_stitched_cond_jump_layouts_witness :
    stacksEqualUpToJunk
        ((stitchConditionalJumps gC3 0 8 layoutC3 1).entryLayout)
        (((stitchConditionalJumps gC3 0 8 layoutC3 0).exitLayout).dropLast) ∧
      stacksEqualUpToJunk
        ((stitchConditionalJumps gC3 0 8 layoutC3 2).entryLayout)
        (((stitchConditionalJumps gC3 0 8 layoutC3 0).exitLayout).dropLast) ∧
      stacksEqualUpToJunk
        ((stitchConditionalJumps gC3 0 8 layoutC3 1).entryLayout)
        ((stitchConditionalJumps gC3 0 8 layoutC3 2).entryLayout) :=
  C3_stitched_cond_jump_layouts gC3 0 8 layoutC3 0 (.varSlot 9) 1 2
    (by decide) (by decide) (by decide)
/-! ### Visiting function calls (DataFlowGraph.cpp lines 124-175) -/

/-- Yul expressions as the builder visits them: literals, identifiers, and
function calls, the latter carrying a call-site identity (the C++ keys
return labels and temporaries by the `FunctionCall` node's identity). -/
inductive Expr where
  | lit (v : Nat)
  | ident (x : Nat)
  | call (callId : Nat) (fname : Nat) (args : List Expr)

/-- What the dialect reports for a builtin: which argument positions are
literal arguments (`literalArgument(idx).has_value()`), and the declared
number of returns. -/
structure BuiltinInfo where
  litArgs : List Bool
  rets : Nat
  deriving DecidableEq, Repr

/-- `builtin->literalArgument(i).has_value()`. -/
def litArgAt (l : List Bool) (i : Nat) : Bool := l.getD i false

/-- `m_dialect.builtin(name)`: `none` means a user-defined function. -/
def Dialect := Nat → Option BuiltinInfo

/-- The stack slot an expression lowers to: `operator()(Literal)` gives a
literal slot, `operator()(Identifier)` a variable slot, and
`operator()(FunctionCall)` the single temporary of the visited call. -/
def slotOf : Expr → StackSlot
  | .lit v => .litSlot v
  | .ident x => .varSlot x
  | .call cid _ _ => .tempSlot cid 0

mutual

/-- `DataFlowGraphBuilder::operator()(Expression)`: returns the operations
appended for nested calls together with the expression's slot; visiting a
call asserts a single return value (`output.size() == 1`) and yields
`output.front()`.  The fuel bounds the expression depth. -/
def visitExpr (d : Dialect) (fr : Nat → Nat) :
    Nat → Expr → Option (List Operation × StackSlot)
  | 0, _ => none
  | _ + 1, .lit v => some ([], .litSlot v)
  | _ + 1, .ident x => some ([], .varSlot x)
  | fuel + 1, .call cid fname args =>
    match visitCall d fr fuel cid fname args with
    | some (ops, op) =>
      match op.output with
      | [s] => some (ops ++ [op], s)
      | _ => none
    | none => none

/-- `DataFlowGraphBuilder::visitFunctionCall`: a builtin call takes the
arguments enumerated, reversed, filtered of literal arguments and lowered
to slots, produces one temporary per declared return, and records the
input length as the builtin call's argument count; a user-defined call
prepends the call's return label below the reversed lowered arguments and
produces one temporary per declared return of the callee. -/
def visitCall (d : Dialect) (fr : Nat → Nat) :
    Nat → Nat → Nat → List Expr → Option (List Operation × Operation)
  | 0, _, _, _ => none
  | fuel + 1, cid, fname, args =>
    match d fname with
    | some b =>
      match visitArgs d fr fuel
          (((args.enum).reverse.filter
            (fun p => !litArgAt b.litArgs p.1)).map Prod.snd) with
      | some (ops, slots) =>
        some (ops, ⟨slots, (List.range b.rets).map (fun i => .tempSlot cid i),
          .builtinCall slots.length⟩)
      | none => none
    | none =>
      match visitArgs d fr fuel args.reverse with
      | some (ops, slots) =>
        some (ops, ⟨.retLabel cid :: slots,
          (List.range (fr fname)).map (fun i => .tempSlot cid i),
          .functionCall⟩)
      | none => none

/-- Lowering a list of argument expressions in order, collecting the
operations appended for nested calls. -/
def visitArgs (d : Dialect) (fr : Nat → Nat) :
    Nat → List Expr → Option (List Operation × List StackSlot)
  | 0, _ => none
  | _ + 1, [] => some ([], [])
  | fuel + 1, e :: rest =>
    match visitExpr d fr fuel e with
    | some (ops1, s) =>
      match visitArgs d fr fuel rest with
      | some (ops2, ss) => some (ops1 ++ ops2, s :: ss)
      | none => none
    | none => none

end

/-- Every operation `visitCall` creates outputs exactly the temporaries of
the call site, in order. -/
theorem visitCall_output (d : Dialect) (fr : Nat → Nat) (fuel cid fname : Nat)
    (args : List Expr) (ops : List Operation) (op : Operation)
    (h : visitCall d fr fuel cid fname args = some (ops, op)) :
    ∃ k, op.output = (List.range k).map (fun i => StackSlot.tempSlot cid i) := by
  cases fuel with
  | zero => exact Option.noConfusion h
  | succ n =>
    cases hd : d fname with
    | some b =>
      simp only [visitCall, hd] at h
      cases ha : visitArgs d fr n
          (((args.enum).reverse.filter
            (fun p => !litArgAt b.litArgs p.1)).map Prod.snd) with
      | none => rw [ha] at h; exact Option.noConfusion h
      | some pr =>
        obtain ⟨ops1, slots⟩ := pr
        rw [ha] at h
        simp only [Option.some.injEq, Prod.mk.injEq] at h
        exact ⟨b.rets, by rw [← h.2]⟩
    | none =>
      simp only [visitCall, hd] at h
      cases ha : visitArgs d fr n args.reverse with
      | none => rw [ha] at h; exact Option.noConfusion h
      | some pr =>
        obtain ⟨ops1, slots⟩ := pr
        rw [ha] at h
        simp only [Option.some.injEq, Prod.mk.injEq] at h
        exact ⟨fr fname, by rw [← h.2]⟩

/-- The slot `visitExpr` returns is determined by the expression's shape. -/
theorem visitExpr_slot (d : Dialect) (fr : Nat → Nat) (fuel : Nat) (e : Expr)
    (ops : List Operation) (s : StackSlot)
    (h : visitExpr d fr fuel e = some (ops, s)) : s = slotOf e := by
  cases fuel with
  | zero => exact Option.noConfusion h
  | succ n =>
    cases e with
    | lit v =>
      simp only [visitExpr, Option.some.injEq, Prod.mk.injEq] at h
      exact h.2.symm
    | ident x =>
      simp only [visitExpr, Option.some.injEq, Prod.mk.injEq] at h
      exact h.2.symm
    | call cid fname args =>
      simp only [visitExpr] at h
      cases hc : visitCall d fr n cid fname args with
      | none => rw [hc] at h; exact Option.noConfusion h
      | some pr =>
        obtain ⟨ops0, op⟩ := pr
        rw [hc] at h
        simp only [] at h
        obtain ⟨k, hk⟩ := visitCall_output d fr n cid fname args ops0 op hc
        cases houtput : op.output with
        | nil => rw [houtput] at h; exact Option.noConfusion h
        | cons s0 tail =>
          cases tail with
          | nil =>
            rw [houtput] at h
            simp only [Option.some.injEq, Prod.mk.injEq] at h
            rw [houtput] at hk
            have hk1 : k = 1 := by
              have hlen := congrArg List.length hk
              simpa using hlen.symm
            rw [hk1] at hk
            have hrange : (List.range 1).map
                (fun i => StackSlot.tempSlot cid i) = [StackSlot.tempSlot cid 0] := by
              simp [List.range_succ]
            rw [hrange] at hk
            simp only [List.cons.injEq, and_true] at hk
            rw [← h.2, hk]
            rfl
          | cons s1 tail2 => rw [houtput] at h; exact Option.noConfusion h

/-- `visitArgs` lowers each argument to its shape-determined slot. -/
theorem visitArgs_slots (d : Dialect) (fr : Nat → Nat) :
    ∀ (fuel : Nat) (l : List Expr) (ops : List Operation) (ss : List StackSlot),
      visitArgs d fr fuel l = some (ops, ss) → ss = l.map slotOf := by
  intro fuel
  induction fuel with
  | zero => intro l ops ss h; exact Option.noConfusion h
  | succ n ih =>
    intro l ops ss h
    cases l with
    | nil =>
      simp only [visitArgs, Option.some.injEq, Prod.mk.injEq] at h
      rw [← h.2]
      rfl
    | cons e rest =>
      simp only [visitArgs] at h
      cases he : visitExpr d fr n e with
      | none => rw [he] at h; exact Option.noConfusion h
      | some pr1 =>
        obtain ⟨ops1, s⟩ := pr1
        rw [he] at h
        simp only [] at h
        cases hr : visitArgs d fr n rest with
        | none => rw [hr] at h; exact Option.noConfusion h
        | some pr2 =>
          obtain ⟨ops2, ss2⟩ := pr2
          rw [hr] at h
          simp only [Option.some.injEq, Prod.mk.injEq] at h
          rw [← h.2, List.map_cons, visitExpr_slot d fr n e ops1 s he,
            ih rest ops2 ss2 hr]

/-- C4: for every operation the builder creates for a function call, the
output length equals the callee's declared number of returns, and for a
user-defined callee the bottom (first) input slot is the call's return
label and the output is exactly the call's temporaries
`TemporarySlot(call, i)` for `i = 0 .. returns-1`, in order. -/
theorem C4_call_operation_shape (d : Dialect) (fr : Nat → Nat)
    (fuel cid fname : Nat) (args : List Expr)
    (ops : List Operation) (op : Operation)
    (h : visitCall d fr fuel cid fname args = some (ops, op)) :
    (∀ b, d fname = some b → op.output.length = b.rets) ∧
      (d fname = none →
        op.output.length = fr fname ∧
        op.input.head? = some (StackSlot.retLabel cid) ∧
        op.output = (List.range (fr fname)).map
          (fun i => StackSlot.tempSlot cid i)) := by
  cases fuel with
  | zero => exact Option.noConfusion h
  | succ n =>
    cases hd : d fname with
    | some b =>
      simp only [visitCall, hd] at h
      cases ha : visitArgs d fr n
          (((args.enum).reverse.filter
            (fun p => !litArgAt b.litArgs p.1)).map Prod.snd) with
      | none => rw [ha] at h; exact Option.noConfusion h
      | some pr =>
        obtain ⟨ops1, slots⟩ := pr
        rw [ha] at h
        simp only [Option.some.injEq, Prod.mk.injEq] at h
        constructor
        · intro b2 hb2
          rw [← h.2, ← Option.some.inj hb2]
          simp
        · intro hnone
          exact Option.noConfusion hnone
    | none =>
      simp only [visitCall, hd] at h
      cases ha : visitArgs d fr n args.reverse with
      | none => rw [ha] at h; exact Option.noConfusion h
      | some pr =>
        obtain ⟨ops1, slots⟩ := pr
        rw [ha] at h
        simp only [Option.some.injEq, Prod.mk.injEq] at h
        constructor
        · intro b2 hb2
          exact Option.noConfusion hb2
        · intro hnone
          refine ⟨?_, ?_, ?_⟩
          · rw [← h.2]; simp
          · rw [← h.2]
            rfl
          · rw [← h.2]

/-- The dialect of the C4 witness: no builtins, so every call is a
user-defined function call. -/
def dC4 : Dialect := fun _ => none

/-- Witness for C4 at a concrete user-defined call with two returns. -/
theorem C4_call_operation_shape_witness :
    (Operation.mk [StackSlot.retLabel 3, StackSlot.varSlot 4, StackSlot.litSlot 5]
        [StackSlot.tempSlot 3 0, StackSlot.tempSlot 3 1]
        OperationKind.functionCall).output.length = 2 ∧
      (Operation.mk [StackSlot.retLabel 3, StackSlot.varSlot 4, StackSlot.litSlot 5]
        [StackSlot.tempSlot 3 0, StackSlot.tempSlot 3 1]
        OperationKind.functionCall).input.head? = some (StackSlot.retLabel 3) ∧
      (Operation.mk [StackSlot.retLabel 3, StackSlot.varSlot 4, StackSlot.litSlot 5]
        [StackSlot.tempSlot 3 0, StackSlot.tempSlot 3 1]
        OperationKind.functionCall).output = (List.range 2).map
          (fun i => StackSlot.tempSlot 3 i) :=
  (C4_call_operation_shape dC4 (fun _ => 2) 5 3 7 [.lit 5, .ident 4] []
    ⟨[.retLabel 3, .varSlot 4, .litSlot 5], [.tempSlot 3 0, .tempSlot 3 1],
      .functionCall⟩ (by decide)).2 rfl

/-- C6: for every builtin call, the operation's input is the argument list
in reverse source order with the builtin's literal arguments dropped and
each remaining argument lowered to its slot, the output is one temporary
per declared return, and the recorded argument count of the builtin call
equals the input length. -/
theorem C6_builtin_call_shape (d : Dialect) (fr : Nat → Nat)
    (fuel cid fname : Nat) (args : List Expr) (b : BuiltinInfo)
    (ops : List Operation) (op : Operation)
    (hb : d fname = some b)
    (h : visitCall d fr fuel cid fname args = some (ops, op)) :
    op.input = ((args.enum.filter
        (fun p => !litArgAt b.litArgs p.1)).map (fun p => slotOf p.2)).reverse ∧
      op.output = (List.range b.rets).map (fun i => StackSlot.tempSlot cid i) ∧
      op.operation = OperationKind.builtinCall op.input.length := by
  cases fuel with
  | zero => exact Option.noConfusion h
  | succ n =>
    simp only [visitCall, hb] at h
    cases ha : visitArgs d fr n
        (((args.enum).reverse.filter
          (fun p => !litArgAt b.litArgs p.1)).map Prod.snd) with
    | none => rw [ha] at h; exact Option.noConfusion h
    | some pr =>
      obtain ⟨ops1, slots⟩ := pr
      rw [ha] at h
      simp only [Option.some.injEq, Prod.mk.injEq] at h
      have hslots := visitArgs_slots d fr n _ ops1 slots ha
      have hsel : ((((args.enum).reverse.filter
          (fun p => !litArgAt b.litArgs p.1)).map Prod.snd).map slotOf) =
          ((args.enum.filter
            (fun p => !litArgAt b.litArgs p.1)).map (fun p => slotOf p.2)).reverse := by
        rw [List.filter_reverse, List.map_reverse, List.map_reverse,
          List.map_map]
        rfl
      refine ⟨?_, ?_, ?_⟩
      · rw [← h.2, hslots, hsel]
      · rw [← h.2]
      · rw [← h.2, hslots, hsel]

/-- The dialect of the C6 witness: builtin 0 declares its second argument
literal and one return. -/
def dC6 : Dialect := fun n => if n = 0 then some ⟨[false, true], 1⟩ else none

/-- Witness for C6 at a concrete builtin call: of the two arguments, the
literal second one is dropped, the remaining identifier is lowered, and
the argument count 1 is recorded. -/
theorem C6_builtin_call_shape_witness :
    (Operation.mk [StackSlot.varSlot 4] [StackSlot.tempSlot 3 0]
        (OperationKind.builtinCall 1)).input =
      (([(0, Expr.ident 4), (1, Expr.lit 9)].filter
        (fun p => !litArgAt [false, true] p.1)).map (fun p => slotOf p.2)).reverse ∧
      (Operation.mk [StackSlot.varSlot 4] [StackSlot.tempSlot 3 0]
        (OperationKind.builtinCall 1)).output =
        (List.range 1).map (fun i => StackSlot.tempSlot 3 i) ∧
      (Operation.mk [StackSlot.varSlot 4] [StackSlot.tempSlot 3 0]
        (OperationKind.builtinCall 1)).operation =
        OperationKind.builtinCall
          (Operation.mk [StackSlot.varSlot 4] [StackSlot.tempSlot 3 0]
            (OperationKind.builtinCall 1)).input.length :=
  C6_builtin_call_shape dC6 (fun _ => 0) 5 3 0 [.ident 4, .lit 9]
    ⟨[false, true], 1⟩ [] ⟨[.varSlot 4], [.tempSlot 3 0], .builtinCall 1⟩
    rfl (by decide)


end SolYul
